import Mathlib

/-!
Shallow embedding of `src/py/get_fit_data.py` (SuperDARN fitacf utility):
beams, scans, beam-to-scan segmentation, ground-scatter estimation, and the
pandas flatten/unflatten bridge, together with theorems settling the
specification claims.

Modelling conventions:
* Python numbers are rationals (`Rat`); float `NaN` (the missing sentinel) and
  `None` are explicit atoms; `datetime` values are points of a linear
  timeline (`Nat`), since only their total order and equality are used.
* A Python object attribute table, and a record dict, are association lists
  from field names to values; a later `setattr` shadows earlier ones, which
  is represented by prepending (first match wins on lookup).
* Code that raises an uncaught exception on some input is modelled with
  `Except` at the boundary where the claims exercise it; elsewhere, total
  default values are used and noted, and every theorem only exercises the
  crash-free fragment.
-/

namespace GetFitData

/-- Scalar runtime values: Python `None`, float `nan`, numbers, datetimes. -/
inductive Atom where
  | pynone : Atom
  | nan    : Atom
  | num    : ℚ → Atom
  | dtime  : ℕ → Atom
deriving DecidableEq, Repr

/-- Runtime values: a scalar, a 1-d array / list of scalars, or a 2-d array
(a list of rows), which is how the columnar record sets of `set_nc`, and the
column-vector result of `np.argwhere`, are shaped. -/
inductive Val where
  | atom  : Atom → Val
  | vlist : List Atom → Val
  | mat   : List (List Atom) → Val
deriving DecidableEq, Repr

/-- Shorthand for a numeric scalar value. -/
def vnum (q : ℚ) : Val := Val.atom (Atom.num q)

/-- Shorthand for the Python `None` value. -/
def vnone : Val := Val.atom Atom.pynone

/-- Elements of a list value; iterating a non-list raises in Python, which is
outside the modelled fragment, so the default is the empty list. -/
def Val.elems : Val → List Atom
  | Val.vlist l => l
  | _ => []

/-- View of a value as a scalar atom.  The flatten code only places scalar
attributes into scalar table columns; a non-scalar there is outside the
modelled fragment and defaults to `None`. -/
def Val.toAtom : Val → Atom
  | Val.atom a => a
  | _ => Atom.pynone

/-- A record dict (or a pandas `to_dict` result): field name to value. -/
abbrev Dict := List (String × Val)

/-- Keyed lookup, first match wins (Python dict keys are unique; the
attribute lists built below use first-match order to realise `setattr`
shadowing). -/
def afind {α : Type} (k : String) : List (String × α) → Option α
  | [] => Option.none
  | (c, v) :: t => if c = k then some v else afind k t

/-- One beam object: its attribute table, as assigned by `setattr`. -/
structure Beam where
  attrs : List (String × Val)
deriving DecidableEq, Repr

instance : Inhabited Beam := ⟨⟨[]⟩⟩

/-- Attribute lookup; `Option.none` means the attribute was never assigned
(`getattr` would raise `AttributeError`). -/
def Beam.get (b : Beam) (p : String) : Option Val := afind p b.attrs

/-- Total attribute access for call sites where the source assumes the
attribute exists. -/
def Beam.attr (b : Beam) (p : String) : Val := (b.get p).getD vnone

/-- Scalar field stored by `Beam.set` (get_fit_data.py lines 56-60): present
fields are copied, except `scan`, which becomes 1 whenever the raw value
compares unequal to 0; an absent field is stored as `None`.  The `k` index
parameter of the source is `None` at every call site and is omitted. -/
def scalAttr (d : Dict) (p : String) : Val :=
  match afind p d with
  | some v => if p = "scan" ∧ v ≠ vnum 0 then vnum 1 else v
  | Option.none => vnone

/-- Vector field stored by `Beam.set` (lines 61-63): copied verbatim when
present, an empty list otherwise. -/
def vecAttr (d : Dict) (p : String) : Val :=
  match afind p d with
  | some v => v
  | Option.none => Val.vlist []

/-- The record-list construction path `Beam.set` (lines 47-65): scalar params
are assigned, then vector params, then `self.time = time`.  Later writes
shadow earlier ones, hence the reversed blocks with `time` in front. -/
def Beam.set (time : Val) (d : Dict) (s_params v_params : List String) : Beam :=
  ⟨("time", time) ::
    (v_params.reverse.map (fun p => (p, vecAttr d p)) ++
     s_params.reverse.map (fun p => (p, scalAttr d p)))⟩

/-- Row extraction `d[p][i]` used by `set_nc` on scalar columns (line 76). -/
def Val.index (v : Val) (i : ℕ) : Val :=
  match v with
  | Val.vlist l => Val.atom (l.getD i Atom.pynone)
  | Val.mat rows => Val.vlist (rows.getD i [])
  | _ => Val.atom Atom.pynone

/-- Scalar field stored by `Beam.set_nc` (lines 75-77): the i-th entry of the
column when present, `None` otherwise.  Note: no `scan` normalization here. -/
def ncScalAttr (d : Dict) (i : ℕ) (p : String) : Val :=
  match afind p d with
  | some v => v.index i
  | Option.none => vnone

/-- The in-place NaN filter `x[~np.isnan(x)]` of line 82. -/
def rowFilterNan : Val → Val
  | Val.vlist l => Val.vlist (l.filter (fun a => a ≠ Atom.nan))
  | v => v

/-- The gate-index derivation `np.argwhere(~np.isnan(v))` of line 81:
positions of the non-NaN entries, in the (k,1) column-vector shape that
`np.argwhere` produces on a 1-d input. -/
def rowArgwhere : Val → Val
  | Val.vlist l =>
      Val.mat (((l.enum).filter (fun ia => ia.2 ≠ Atom.nan)).map
        (fun ia => [Atom.num (ia.1 : ℚ)]))
  | _ => Val.mat []

/-- Attribute writes performed for one vector param by `set_nc`
(lines 78-83), in program order: the raw i-th row, then (for `v`, when
`slist` was not requested) the derived gate-index list, then the NaN-filtered
row overwriting the raw one.  An absent field is stored as an empty list. -/
def ncVecWrites (d : Dict) (i : ℕ) (v_params : List String) (p : String) :
    List (String × Val) :=
  match afind p d with
  | some v =>
      let row := v.index i
      (p, row) ::
        ((if "slist" ∉ v_params ∧ p = "v" then [("slist", rowArgwhere row)] else [])
          ++ [(p, rowFilterNan row)])
  | Option.none => [(p, Val.vlist [])]

/-- The columnar construction path `Beam.set_nc` (lines 67-85). -/
def Beam.set_nc (time : Val) (d : Dict) (i : ℕ)
    (s_params v_params : List String) : Beam :=
  ⟨("time", time) ::
    ((v_params.flatMap (ncVecWrites d i v_params)).reverse ++
     s_params.reverse.map (fun p => (p, ncScalAttr d i p)))⟩

/-- Model of `np.abs` on a rational (squares below are written as explicit
products so that every criterion is plain field arithmetic). -/
def npAbs (a : ℚ) : ℚ := if a < 0 then -a else a

/-- Criterion 0 (Sundeen): `|v| + w/3 < 30`.  An IEEE NaN operand makes the
comparison false, hence flag 0; `None` operands are outside the fragment. -/
def gsCrit0 (v w : Atom) : Atom :=
  match v, w with
  | Atom.num a, Atom.num b => Atom.num (if npAbs a + b / 3 < 30 then 1 else 0)
  | _, _ => Atom.num 0

/-- Criterion 1 (Blanchard): `|v| + 0.4 w < 60`. -/
def gsCrit1 (v w : Atom) : Atom :=
  match v, w with
  | Atom.num a, Atom.num b => Atom.num (if npAbs a + (2 / 5) * b < 60 then 1 else 0)
  | _, _ => Atom.num 0

/-- Criterion 2 (Blanchard 2009): `|v| - 0.139 w + 0.00113 w**2 < 33.1`. -/
def gsCrit2 (v w : Atom) : Atom :=
  match v, w with
  | Atom.num a, Atom.num b =>
      Atom.num
        (if npAbs a - (139 / 1000) * b + (113 / 100000) * (b * b) < 331 / 10 then 1 else 0)
  | _, _ => Atom.num 0

/-- Criterion 3 (modified, default): `w - (50 - 0.7 (v+5)**2) < 0`. -/
def gsCrit3 (v w : Atom) : Atom :=
  match v, w with
  | Atom.num a, Atom.num b =>
      Atom.num (if b - (50 - (7 / 10) * ((a + 5) * (a + 5))) < 0 then 1 else 0)
  | _, _ => Atom.num 0

/-- Ground-scatter estimation (lines 92-106).  The resulting `self.gsflg`
mapping from criterion index to flag array is modelled as the returned
association list: criteria 0-2 are computed only when both `v` and `w_l` are
nonempty, criterion 3 always.  Elementwise numpy operations on equal-length
arrays are modelled with `zipWith`. -/
def Beam.gs_estimation (b : Beam) : List (ℕ × List Atom) :=
  let v := (b.attr "v").elems
  let w := (b.attr "w_l").elems
  (if 0 < v.length ∧ 0 < w.length then
    [(0, List.zipWith gsCrit0 v w), (1, List.zipWith gsCrit1 v w),
     (2, List.zipWith gsCrit2 v w)]
   else []) ++ [(3, List.zipWith gsCrit3 v w)]

/-- One scan object (lines 108-143).  `f` and `nsky` are assigned only by
`_populate_avg_params`, hence `Option`-valued (absent before the first
`update_time`). -/
structure Scan where
  stime : Val
  etime : Val
  s_mode : String
  beams : List Beam
  f : Option Val
  nsky : Option Val
deriving DecidableEq, Repr

instance : Inhabited Scan := ⟨⟨vnone, vnone, "", [], Option.none, Option.none⟩⟩

/-- A freshly constructed `Scan(None, None, s_mode)`. -/
def Scan.init (smode : String) : Scan :=
  ⟨vnone, vnone, smode, [], Option.none, Option.none⟩

/-- Sort key of a datetime value, for `min` / `max` over beam times; the
call sites only compare datetimes. -/
def timeKey (v : Val) : ℕ :=
  match v with
  | Val.atom (Atom.dtime t) => t
  | _ => 0

/-- Python `min` over a list of datetimes: first occurrence of the minimum;
`min` of an empty list raises, and the call sites pass nonempty lists, so the
default is `None`. -/
def pyMin (l : List Val) : Val :=
  match l with
  | [] => vnone
  | x :: xs => xs.foldl (fun acc v => if timeKey v < timeKey acc then v else acc) x

/-- Python `max` over a list of datetimes: first occurrence of the maximum. -/
def pyMax (l : List Val) : Val :=
  match l with
  | [] => vnone
  | x :: xs => xs.foldl (fun acc v => if timeKey acc < timeKey v then v else acc) x

/-- Numeric view of a value for `np.mean`; the averaged fields (`tfreq`,
`noise.sky`) are numeric at every call site. -/
def valQ (v : Val) : ℚ :=
  match v with
  | Val.atom (Atom.num q) => q
  | _ => 0

/-- Mean of a list of numeric values, `np.mean` (NaN on an empty list). -/
def npMean (l : List Val) : Val :=
  if l.length = 0 then Val.atom Atom.nan
  else Val.atom (Atom.num ((l.map valQ).sum / (l.length : ℚ)))

/-- Scan finalization `update_time` (lines 124-132): recompute `stime` and
`etime` from the member beams and populate the average parameters `f`
(mean `tfreq`) and `nsky` (mean `noise.sky`). -/
def Scan.update_time (s : Scan) : Scan :=
  { s with
    stime := pyMin (s.beams.map (fun b => b.attr "time"))
    etime := pyMax (s.beams.map (fun b => b.attr "time"))
    f := some (npMean (s.beams.map (fun b => b.attr "tfreq")))
    nsky := some (npMean (s.beams.map (fun b => b.attr "noise.sky"))) }

/-- The scan-split test of line 215: boundary flag equal to 1 and a timestamp
different from the immediately preceding beam of the input sequence. -/
def isSplitB (d prev : Beam) : Bool :=
  decide (d.attr "scan" = vnum 1) && decide (d.attr "time" ≠ prev.attr "time")

/-- The segmentation loop of lines 214-221 over the remaining beams, carrying
the open scan members `cur` and the previous beam `prev` (`_b[_ix]`).  On a
split the open scan is finalized with `update_time` and emitted; after the
loop the still-open scan is emitted WITHOUT `update_time` (line 221). -/
def seg_loop (smode : String) : List Beam → Beam → List Beam → List Scan
  | cur, _, [] => [{ Scan.init smode with beams := cur }]
  | cur, prev, d :: rest =>
      if isSplitB d prev then
        Scan.update_time { Scan.init smode with beams := cur } ::
          seg_loop smode [d] d rest
      else seg_loop smode (cur ++ [d]) d rest

/-- The scan phase of `FetchData._parse_data` (lines 210-222): on an empty
beam list, `sc.beams.append(_b[0])` raises an uncaught `IndexError`;
otherwise the loop groups the beams into scans. -/
def parse_scan (bs : List Beam) (smode : String) : Except String (List Scan) :=
  match bs with
  | [] => Except.error "IndexError"
  | b :: rest => Except.ok (seg_loop smode [b] b rest)

/-- Integer view of a scalar used for the datetime components of a raw
record (`d["time.yr"]` etc., integers at every call site). -/
def atomNat (v : Val) : ℕ :=
  match v with
  | Val.atom (Atom.num q) => q.num.toNat
  | _ => 0

/-- Integer field of a record dict (KeyError on absence is outside the
modelled fragment). -/
def dnat (d : Dict) (k : String) : ℕ :=
  match afind k d with
  | some v => atomNat v
  | Option.none => 0

/-- Embedding of `dt.datetime(yr, mo, dy, hr, mt, sc, us)` on the linear
timeline: strictly monotone in the lexicographic component order for
calendar-range components, which is all the code uses (order and equality). -/
def mkDatetime (yr mo dy hr mt sc us : ℕ) : ℕ :=
  (((((yr * 13 + mo) * 32 + dy) * 24 + hr) * 60 + mt) * 60 + sc) * 1000000 + us

/-- Timestamp assembled from the seven time fields of a record (line 204). -/
def recordTime (d : Dict) : ℕ :=
  mkDatetime (dnat d "time.yr") (dnat d "time.mo") (dnat d "time.dy")
    (dnat d "time.hr") (dnat d "time.mt") (dnat d "time.sc") (dnat d "time.us")

/-- The beam phase of `FetchData._parse_data` (lines 201-208): each record
whose assembled time lies inside the requested date range, inclusively at
both ends, yields a `Beam` via `Beam.set`; other records are skipped. -/
def parse_beams (dr0 dr1 : ℕ) (s_params v_params : List String) :
    List Dict → List Beam
  | [] => []
  | d :: rest =>
      let time := recordTime d
      if dr0 ≤ time ∧ time ≤ dr1 then
        Beam.set (Val.atom (Atom.dtime time)) d s_params v_params ::
          parse_beams dr0 dr1 s_params v_params rest
      else parse_beams dr0 dr1 s_params v_params rest

/-! ### The pandas table bridge

A dataframe is modelled as its column dict: an association list from column
name to the column contents (a list of atoms).  All table-producing code of
the source keeps one entry per distinct column name; the scalar/vector
parameter lists are disjoint at every call site, and the theorems below
assume this. -/

/-- A dataframe, as an association list of columns. -/
abbrev Table := List (String × List Atom)

/-- Column access; the call sites only access existing columns. -/
def colOf (t : Table) (c : String) : List Atom := (afind c t).getD []

/-- Gate count of a beam: `len(getattr(b, "slist"))` (line 232). -/
def gateCount (b : Beam) : ℕ := ((b.attr "slist").elems).length

/-- The default scalar parameter list of `convert_to_pandas`,
`pandas_to_beams` and `pandas_to_scans`. -/
def s_def : List String := ["bmnum", "noise.sky", "tfreq", "scan", "nrang", "time"]

/-- The default vector parameter list of the table bridge. -/
def v_def : List String := ["v", "w_l", "gflg", "p_l", "slist", "v_e", "phi0", "elv"]

/-- The default scalar parameter list of `scans_to_pandas` (adds `channel`). -/
def s_def_scan : List String :=
  ["bmnum", "noise.sky", "tfreq", "scan", "nrang", "time", "channel"]

/-- Unpadded column contents produced by the loop of lines 231-236: a vector
parameter column receives each beam contents in order; a scalar parameter
column receives the scalar repeated once per gate of its beam. -/
def rawCol (beams : List Beam) (v_params : List String) (c : String) : List Atom :=
  if c ∈ v_params then beams.flatMap (fun b => (b.attr c).elems)
  else beams.flatMap (fun b => List.replicate (gateCount b) ((b.attr c).toAtom))

/-- The padding step of lines 237-241 (also lines 260-264): every column
shorter than the `slist` column is right-padded with NaN up to its length.
A longer column is left alone. -/
def padTable (t : Table) : Table :=
  t.map (fun e =>
    (e.1, e.2 ++ List.replicate ((colOf t "slist").length - e.2.length) Atom.nan))

/-- Flattening beams to a dataframe, `FetchData.convert_to_pandas`
(lines 225-242). -/
def convert_to_pandas (beams : List Beam) (s_params v_params : List String) :
    Table :=
  padTable ((s_params ++ v_params).map (fun c => (c, rawCol beams v_params c)))

/-- Boolean-mask row selection on one column (the rows of a dataframe are
the common index positions of its columns). -/
def maskFilter {α : Type} : List Bool → List α → List α
  | true :: m, x :: xs => x :: maskFilter m xs
  | false :: m, _ :: xs => maskFilter m xs
  | _, _ => []

/-- Row selection `df[df.key == x]`. -/
def filterTable (t : Table) (key : String) (x : Atom) : Table :=
  t.map (fun e =>
    (e.1, maskFilter ((colOf t key).map (fun a => decide (a = x))) e.2))

/-- Rank used to order atoms of distinct kinds; `np.unique` sorts columns,
and the sorted columns of this development are homogeneous (numeric), where
the rank is irrelevant. -/
def atomRank : Atom → ℕ
  | Atom.pynone => 0
  | Atom.nan => 1
  | Atom.num _ => 2
  | Atom.dtime _ => 3

/-- Total comparison on atoms backing the `np.unique` sort. -/
def atomLE (a b : Atom) : Bool :=
  match a, b with
  | Atom.num x, Atom.num y => decide (x ≤ y)
  | Atom.dtime x, Atom.dtime y => decide (x ≤ y)
  | _, _ => decide (atomRank a ≤ atomRank b)

/-- Insertion into a sorted duplicate-free list, skipping present values. -/
def insertSD (x : Atom) : List Atom → List Atom
  | [] => [x]
  | y :: ys =>
      if x = y then y :: ys
      else if atomLE x y then x :: y :: ys
      else y :: insertSD x ys

/-- Sorted distinct values of a column, `np.unique`. -/
def uniqueSorted (l : List Atom) : List Atom := l.foldr insertSD []

/-- The dict handed to `Beam.set` by `pandas_to_beams` (lines 275-277):
`to_dict(orient="list")` gives each column as a list, then each scalar
parameter entry is replaced by its first element (`d[p] = d[p][0]`; the
group is nonempty at every call site). -/
def groupDict (o : Table) (s_params : List String) : Dict :=
  o.map (fun e =>
    (e.1, if e.1 ∈ s_params then Val.atom (e.2.headD Atom.pynone) else Val.vlist e.2))

/-- Unflattening a dataframe to beams, `FetchData.pandas_to_beams`
(lines 267-281): one beam per distinct `bmnum` value in ascending order,
built by `Beam.set` from the row group of that value. -/
def pandas_to_beams (t : Table) (s_params v_params : List String) : List Beam :=
  (uniqueSorted (colOf t "bmnum")).map (fun bm =>
    let o := filterTable t "bmnum" bm
    Beam.set (Val.atom ((colOf o "time").headD Atom.pynone))
      (groupDict o s_params) s_params v_params)

/-- Per-column contribution of one beam inside `scans_to_pandas`
(lines 252-259), including the broadcast `scnum` / `sbnum` ordinals. -/
def beamColExt (s_params v_params : List String) (idn idh : ℕ) (b : Beam)
    (c : String) : List Atom :=
  if c = "scnum" then List.replicate (gateCount b) (Atom.num (idn : ℚ))
  else if c = "sbnum" then List.replicate (gateCount b) (Atom.num (idh : ℚ))
  else if c ∈ v_params then (b.attr c).elems
  else if c ∈ s_params then List.replicate (gateCount b) ((b.attr c).toAtom)
  else []

/-- Extension of the accumulated table by one beam of one scan. -/
def appendBeam (s_params v_params : List String) (idn idh : ℕ) (b : Beam)
    (t : Table) : Table :=
  t.map (fun e => (e.1, e.2 ++ beamColExt s_params v_params idn idh b e.1))

/-- Processing of one scan by `scans_to_pandas`: append every member beam,
then pad all columns to the `slist` column length (lines 251-264; the
padding runs once per scan, inside the scan loop). -/
def scanFold (s_params v_params : List String) (idn : ℕ) (s : Scan)
    (t : Table) : Table :=
  padTable ((s.beams.enum).foldl
    (fun acc ib => appendBeam s_params v_params idn ib.1 ib.2 acc) t)

/-- The empty table with the given columns. -/
def initTable (keys : List String) : Table := keys.map (fun c => (c, []))

/-- Flattening scans to a dataframe, `FetchData.scans_to_pandas`
(lines 244-265). -/
def scans_to_pandas (scans : List Scan) (s_params v_params : List String)
    (start_scnum : ℕ) : Table :=
  (scans.enum).foldl
    (fun acc is => scanFold s_params v_params (is.1 + start_scnum) is.2 acc)
    (initTable (s_params ++ v_params ++ ["scnum", "sbnum"]))

/-- The reconstruction loop of `pandas_to_scans` (lines 288-301): one scan
per distinct `scnum` value, whose beams are obtained per distinct `sbnum`
subgroup through `pandas_to_beams`; each scan is finalized with
`update_time`, and the running maximum beam count is threaded through. -/
def reconstructScans (t : Table) (smode : String) (s_params v_params : List String) :
    List Scan × ℕ :=
  (uniqueSorted (colOf t "scnum")).foldl (fun acc sn =>
    let o := filterTable t "scnum" sn
    let beams := (uniqueSorted (colOf o "sbnum")).flatMap (fun bn =>
      pandas_to_beams (filterTable o "sbnum" bn) s_params v_params)
    (acc.1 ++ [Scan.update_time { Scan.init smode with beams := beams }],
     if acc.2 < beams.length then beams.length else acc.2))
    ([], 0)

/-- Unflattening a dataframe to scans, `FetchData.pandas_to_scans`
(lines 283-312): reconstruction followed by the three-scan merge heuristic
of lines 302-311.  The heuristic reads `scans[0]`, `scans[1]` and `scans[2]`
unconditionally, so fewer than three reconstructed scans raise an uncaught
`IndexError`. -/
def pandas_to_scans (t : Table) (smode : String) (s_params v_params : List String) :
    Except String (List Scan × ℕ) :=
  let r := reconstructScans t smode s_params v_params
  let scans := r.1
  if 3 ≤ scans.length then
    let mscans :=
      if scans[0]!.beams.length + scans[1]!.beams.length = scans[2]!.beams.length then
        Scan.update_time
            { Scan.init scans[0]!.s_mode with beams := scans[0]!.beams ++ scans[1]!.beams } ::
          scans.drop 2
      else []
    Except.ok ((if 0 < mscans.length then mscans else scans), r.2)
  else Except.error "IndexError"

/-! ### Basic lookup lemmas -/

theorem afind_append_some {α : Type} {p : String} {l1 l2 : List (String × α)} {v : α}
    (h : afind p l1 = some v) : afind p (l1 ++ l2) = some v := by
  induction l1 with
  | nil => simp [afind] at h
  | cons e t ih =>
      by_cases he : e.1 = p
      · simp only [afind, he, if_true] at h
        simpa [afind, he] using h
      · simp only [afind, he, if_false] at h
        simp only [List.cons_append, afind, he, if_false]
        exact ih h

theorem afind_append_none {α : Type} {p : String} {l1 : List (String × α)}
    (l2 : List (String × α)) (h : afind p l1 = Option.none) :
    afind p (l1 ++ l2) = afind p l2 := by
  induction l1 with
  | nil => rfl
  | cons e t ih =>
      by_cases he : e.1 = p
      · simp [afind, he] at h
      · simp only [afind, he, if_false, List.cons_append] at h ⊢
        exact ih h

theorem afind_keyfun {α : Type} (f : String → α) (p : String) :
    ∀ (l : List String), p ∈ l → afind p (l.map (fun q => (q, f q))) = some (f p)
  | [], hp => absurd hp (List.not_mem_nil p)
  | q :: t, hp => by
      by_cases hq : q = p
      · subst hq; simp [afind]
      · simp only [List.map_cons, afind, hq, if_false]
        exact afind_keyfun f p t (by
          rcases List.mem_cons.mp hp with h | h
          · exact absurd h.symm hq
          · exact h)

theorem afind_keyfun_none {α : Type} (f : String → α) (p : String) :
    ∀ (l : List String), p ∉ l → afind p (l.map (fun q => (q, f q))) = Option.none
  | [], _ => rfl
  | q :: t, hp => by
      have hq : q ≠ p := fun h => hp (h ▸ List.mem_cons_self q t)
      simp only [List.map_cons, afind, hq, if_false]
      exact afind_keyfun_none f p t (fun h => hp (List.mem_cons_of_mem q h))

theorem afind_none_of_keys {α : Type} {p : String} :
    ∀ {l : List (String × α)}, (∀ e ∈ l, e.1 ≠ p) → afind p l = Option.none
  | [], _ => rfl
  | e :: t, h => by
      simp only [afind, h e (List.mem_cons_self e t), if_false]
      exact afind_none_of_keys (fun x hx => h x (List.mem_cons_of_mem e hx))

/-- Lookup attributes written by `Beam.set`: the `time` argument always wins
(it is the final `setattr`). -/
theorem Beam.set_get_time (t : Val) (d : Dict) (sp vp : List String) :
    (Beam.set t d sp vp).get "time" = some t := by
  simp [Beam.set, Beam.get, afind]

/-- Lookup of a vector parameter in a beam built by `Beam.set`. -/
theorem Beam.set_get_vec (t : Val) (d : Dict) (sp vp : List String) (p : String)
    (hp : p ∈ vp) (hne : p ≠ "time") :
    (Beam.set t d sp vp).get p = some (vecAttr d p) := by
  simp only [Beam.set, Beam.get, afind, hne.symm, if_false]
  exact afind_append_some
    (afind_keyfun (vecAttr d) p vp.reverse (List.mem_reverse.mpr hp))

/-- Lookup of a scalar parameter (not shadowed by a vector one) in a beam
built by `Beam.set`. -/
theorem Beam.set_get_scal (t : Val) (d : Dict) (sp vp : List String) (p : String)
    (hp : p ∈ sp) (hvp : p ∉ vp) (hne : p ≠ "time") :
    (Beam.set t d sp vp).get p = some (scalAttr d p) := by
  simp only [Beam.set, Beam.get, afind, hne.symm, if_false]
  rw [afind_append_none _
    (afind_keyfun_none (vecAttr d) p vp.reverse (fun h => hvp (List.mem_reverse.mp h)))]
  exact afind_keyfun (scalAttr d) p sp.reverse (List.mem_reverse.mpr hp)

/-- A parameter requested by no list and distinct from `time` is absent. -/
theorem Beam.set_get_none (t : Val) (d : Dict) (sp vp : List String) (p : String)
    (hp : p ∉ sp) (hvp : p ∉ vp) (hne : p ≠ "time") :
    (Beam.set t d sp vp).get p = Option.none := by
  simp only [Beam.set, Beam.get, afind, hne.symm, if_false]
  rw [afind_append_none _
    (afind_keyfun_none (vecAttr d) p vp.reverse (fun h => hvp (List.mem_reverse.mp h)))]
  exact afind_keyfun_none (scalAttr d) p sp.reverse (fun h => hp (List.mem_reverse.mp h))

/-! ### Claim C6: boundary-flag normalization in `Beam.set` -/

/-- C6: whenever the raw record dict carries a numeric `scan` field with
value q, the beam built by `Beam.set` stores exactly 1 when q is nonzero and
exactly 0 when q is zero. -/
theorem scan_flag_normalized (t : Val) (d : Dict) (sp vp : List String) (q : ℚ)
    (hsp : "scan" ∈ sp) (hvp : "scan" ∉ vp)
    (hd : afind "scan" d = some (vnum q)) :
    (q = 0 → (Beam.set t d sp vp).attr "scan" = vnum 0) ∧
    (q ≠ 0 → (Beam.set t d sp vp).attr "scan" = vnum 1) := by
  have hne : "scan" ≠ "time" := by decide
  rw [Beam.attr, Beam.set_get_scal t d sp vp "scan" hsp hvp hne]
  simp only [Option.getD_some, scalAttr, hd]
  constructor
  · intro hq; subst hq; simp
  · intro hq
    have : vnum q ≠ vnum 0 := by
      simp only [vnum, ne_eq, Val.atom.injEq, Atom.num.injEq]; exact hq
    simp [this]

/-- Witness for C6 at the raw scan values -1, 0 and 7, which are stored as
1, 0 and 1 respectively. -/
theorem scan_flag_normalized_witness :
    (Beam.set vnone [("scan", vnum (-1))] ["scan"] []).attr "scan" = vnum 1 ∧
    (Beam.set vnone [("scan", vnum 0)] ["scan"] []).attr "scan" = vnum 0 ∧
    (Beam.set vnone [("scan", vnum 7)] ["scan"] []).attr "scan" = vnum 1 :=
  ⟨(scan_flag_normalized vnone [("scan", vnum (-1))] ["scan"] [] (-1)
      (by decide) (by decide) (by simp [afind])).2 (by decide),
   (scan_flag_normalized vnone [("scan", vnum 0)] ["scan"] [] 0
      (by decide) (by decide) (by simp [afind])).1 rfl,
   (scan_flag_normalized vnone [("scan", vnum 7)] ["scan"] [] 7
      (by decide) (by decide) (by simp [afind])).2 (by decide)⟩

/-! ### Claim C8: classifier agreement on synthetic extremes -/

/-- C8: on the single-gate beam with velocity 0 and spectral width 0, all
four ground-scatter criteria of `gs_estimation` flag 1; with velocity 2000
and width 0, all four flag 0. -/
theorem gs_estimation_extremes :
    Beam.gs_estimation ⟨[("v", Val.vlist [Atom.num 0]), ("w_l", Val.vlist [Atom.num 0])]⟩ =
      [(0, [Atom.num 1]), (1, [Atom.num 1]), (2, [Atom.num 1]), (3, [Atom.num 1])] ∧
    Beam.gs_estimation ⟨[("v", Val.vlist [Atom.num 2000]), ("w_l", Val.vlist [Atom.num 0])]⟩ =
      [(0, [Atom.num 0]), (1, [Atom.num 0]), (2, [Atom.num 0]), (3, [Atom.num 0])] := by
  constructor <;>
    norm_num +decide [Beam.gs_estimation, Beam.attr, Beam.get, afind, Val.elems,
      gsCrit0, gsCrit1, gsCrit2, gsCrit3, npAbs, List.zipWith]

/-! ### Claim C3: segmentation of an empty beam sequence -/

/-- C3 (code evaluation at the failing input): segmentation of an empty beam
sequence raises an uncaught `IndexError` from `sc.beams.append(_b[0])`, not
an explicit no-data-to-segment error. -/
theorem parse_scan_empty (smode : String) :
    parse_scan [] smode = Except.error "IndexError" := rfl

/-! ### Claim C10: date-range filtering of raw records -/

/-- C10: the beam phase of `_parse_data` keeps exactly the records whose
assembled timestamp lies inside the date range, inclusively at both ends, in
their original relative order, and builds each surviving beam with
`Beam.set`. -/
theorem parse_beams_eq_filter (dr0 dr1 : ℕ) (sp vp : List String)
    (data : List Dict) :
    parse_beams dr0 dr1 sp vp data =
      (data.filter
        (fun d => decide (dr0 ≤ recordTime d) && decide (recordTime d ≤ dr1))).map
        (fun d => Beam.set (Val.atom (Atom.dtime (recordTime d))) d sp vp) := by
  induction data with
  | nil => rfl
  | cons d rest ih =>
      by_cases h : dr0 ≤ recordTime d ∧ recordTime d ≤ dr1
      · simp [parse_beams, h, h.1, h.2, ih, List.filter]
      · rw [Decidable.not_and_iff_or_not] at h
        rcases h with h | h
        · simp [parse_beams, h, ih, List.filter,
            (fun hc : dr0 ≤ recordTime d ∧ recordTime d ≤ dr1 => h hc.1)]
        · simp [parse_beams, h, ih, List.filter,
            (fun hc : dr0 ≤ recordTime d ∧ recordTime d ≤ dr1 => h hc.2)]

/-! ### Claim C2: segmentation into scans -/

/-- Beams of a scan are untouched by `update_time`. -/
@[simp] theorem Scan.update_time_beams (s : Scan) :
    (Scan.update_time s).beams = s.beams := rfl

/-- A scan whose derived fields were finalized by `update_time` on its
current members: `stime` / `etime` are the min / max member times, `f` and
`nsky` the mean transmit frequency and mean sky noise. -/
def Scan.finalized (s : Scan) : Prop :=
  s.stime = pyMin (s.beams.map (fun b => b.attr "time")) ∧
  s.etime = pyMax (s.beams.map (fun b => b.attr "time")) ∧
  s.f = some (npMean (s.beams.map (fun b => b.attr "tfreq"))) ∧
  s.nsky = some (npMean (s.beams.map (fun b => b.attr "noise.sky")))

/-- No split point occurs inside a group whose chain starts after `prev`. -/
def groupOk (prev : Beam) : List Beam → Bool
  | [] => true
  | b :: r => !isSplitB b prev && groupOk b r

/-- Each further group is nonempty, opens with a split against the last beam
before it, and has no internal split point. -/
def chunksOk : Beam → List (List Beam) → Bool
  | _, [] => true
  | prev, g :: gs =>
      match g with
      | [] => false
      | b :: r => isSplitB b prev && groupOk b r && chunksOk (r.getLastD b) gs

/-- A grouping is exactly the scan segmentation boundary structure: a new
group starts precisely at a beam whose split test against its predecessor
holds. -/
def scanChunks : List (List Beam) → Bool
  | [] => false
  | g :: gs =>
      match g with
      | [] => false
      | b :: r => groupOk b r && chunksOk (r.getLastD b) gs

theorem seg_loop_join (smode : String) :
    ∀ (rest : List Beam) (cur : List Beam) (prev : Beam),
      ((seg_loop smode cur prev rest).map Scan.beams).flatten = cur ++ rest
  | [], cur, _ => by simp [seg_loop]
  | d :: rest, cur, prev => by
      simp only [seg_loop]
      by_cases h : isSplitB d prev = true
      · rw [if_pos h]
        simp only [List.map_cons, List.flatten_cons, Scan.update_time_beams]
        rw [seg_loop_join smode rest [d] d]
        simp
      · rw [if_neg h]
        rw [seg_loop_join smode rest (cur ++ [d]) d]
        simp

/-- Shape of the segmentation output: finitely many finalized scans followed
by one final scan that is appended raw, with `stime`, `etime` left `None`
and no average parameters populated. -/
theorem seg_loop_shape (smode : String) :
    ∀ (rest : List Beam) (cur : List Beam) (prev : Beam),
      ∃ front lastBeams,
        seg_loop smode cur prev rest =
          front ++ [{ Scan.init smode with beams := lastBeams }] ∧
        ∀ s ∈ front, s.finalized
  | [], cur, _ => ⟨[], cur, rfl, by simp⟩
  | d :: rest, cur, prev => by
      by_cases h : isSplitB d prev = true
      · obtain ⟨front, lastBeams, heq, hfin⟩ := seg_loop_shape smode rest [d] d
        refine ⟨Scan.update_time { Scan.init smode with beams := cur } :: front,
          lastBeams, ?_, ?_⟩
        · simp only [seg_loop]
          rw [if_pos h, heq, List.cons_append]
        · intro s hs
          rcases List.mem_cons.mp hs with hs | hs
          · subst hs
            exact ⟨rfl, rfl, rfl, rfl⟩
          · exact hfin s hs
      · obtain ⟨front, lastBeams, heq, hfin⟩ := seg_loop_shape smode rest (cur ++ [d]) d
        refine ⟨front, lastBeams, ?_, hfin⟩
        simp only [seg_loop]
        rw [if_neg h, heq]

theorem getLastD_of_ne_nil {α : Type} :
    ∀ (l : List α), l ≠ [] → ∀ (a b : α), l.getLastD a = l.getLastD b
  | [], h, _, _ => absurd rfl h
  | [_], _, _, _ => rfl
  | _ :: y :: t, _, a, b => by
      simpa [List.getLastD_cons] using
        getLastD_of_ne_nil (y :: t) (by simp) a b

/-- Boundary structure of the segmentation output: the first group extends
the accumulated open scan without internal splits, and every further group
opens at exactly a split point. -/
theorem seg_loop_chunks (smode : String) :
    ∀ (rest : List Beam) (cur : List Beam) (prev : Beam), cur ≠ [] →
      cur.getLast? = some prev →
      ∃ ext gs,
        (seg_loop smode cur prev rest).map Scan.beams = (cur ++ ext) :: gs ∧
        groupOk prev ext = true ∧
        chunksOk ((cur ++ ext).getLastD prev) gs = true
  | [], cur, prev, _, _ => ⟨[], [], by simp [seg_loop], rfl, rfl⟩
  | d :: rest, cur, prev, hne, hlast => by
      by_cases h : isSplitB d prev = true
      · obtain ⟨ext, gs, heq, hgrp, hch⟩ :=
          seg_loop_chunks smode rest [d] d (by simp) (by simp)
        simp only [List.singleton_append] at heq hch
        refine ⟨[], ((d :: ext) :: gs), ?_, rfl, ?_⟩
        · simp only [seg_loop]
          rw [if_pos h]
          simp only [List.map_cons, Scan.update_time_beams, List.append_nil]
          rw [heq]
        · have hprev : cur.getLastD prev = prev := by
            rw [List.getLastD_eq_getLast?, hlast]; rfl
          simp only [List.append_nil, chunksOk, hprev]
          rw [List.getLastD_cons d d ext] at hch
          rw [h, hgrp, hch]
          rfl
      · obtain ⟨ext, gs, heq, hgrp, hch⟩ :=
          seg_loop_chunks smode rest (cur ++ [d]) d (by simp)
            (by rw [List.getLast?_concat])
        refine ⟨d :: ext, gs, ?_, ?_, ?_⟩
        · simp only [seg_loop]
          rw [if_neg h, heq]
          simp
        · rw [Bool.not_eq_true] at h
          simp only [groupOk, h, Bool.not_false, Bool.true_and]
          exact hgrp
        · have hsame : (cur ++ d :: ext) = ((cur ++ [d]) ++ ext) := by simp
          rw [hsame]
          have hnn : ((cur ++ [d]) ++ ext) ≠ [] := by simp
          rw [getLastD_of_ne_nil _ hnn prev d]
          exact hch

/-- C2 (amended): for every nonempty beam sequence, segmentation by scan
succeeds; the concatenation of the produced scans lists the input beams in
order; a new scan starts exactly at a beam whose boundary flag is 1 and
whose timestamp differs from its predecessor; every scan closed during the
loop is finalized by `update_time`; and the final still-open scan is
appended WITHOUT finalization, its `stime` / `etime` still `None` and its
average parameters unpopulated. -/
theorem parse_scan_spec (smode : String) (b : Beam) (rest : List Beam) :
    ∃ out, parse_scan (b :: rest) smode = Except.ok out ∧
      (out.map Scan.beams).flatten = b :: rest ∧
      scanChunks (out.map Scan.beams) = true ∧
      ∃ front lastBeams,
        out = front ++ [{ Scan.init smode with beams := lastBeams }] ∧
        (∀ s ∈ front, s.finalized) := by
  refine ⟨seg_loop smode [b] b rest, rfl, ?_, ?_, ?_⟩
  · simpa using seg_loop_join smode rest [b] b
  · obtain ⟨ext, gs, heq, hgrp, hch⟩ :=
      seg_loop_chunks smode rest [b] b (by simp) (by simp)
    simp only [List.singleton_append] at heq hch
    rw [heq]
    simp only [scanChunks]
    rw [List.getLastD_cons b b ext] at hch
    rw [hgrp, hch]
    rfl
  · exact seg_loop_shape smode rest [b] b

/-- C2 counterexample to the claim as stated: on the two-beam input below
the final (still-open) scan keeps `stime = None`, which differs from the
minimum member beam time demanded by the claim. -/
theorem parse_scan_last_unfinalized :
    ((parse_scan
        [⟨[("scan", vnum 1), ("time", Val.atom (Atom.dtime 0))]⟩,
         ⟨[("scan", vnum 1), ("time", Val.atom (Atom.dtime 1))]⟩] "normal").toOption.map
      (fun out => out.map (fun s => (s.stime, s.beams.map (fun b => b.attr "time"))))) =
      some
        [(Val.atom (Atom.dtime 0), [Val.atom (Atom.dtime 0)]),
         (vnone, [Val.atom (Atom.dtime 1)])] ∧
    pyMin [Val.atom (Atom.dtime 1)] = Val.atom (Atom.dtime 1) ∧
    vnone ≠ Val.atom (Atom.dtime 1) := by
  refine ⟨?_, rfl, by decide⟩
  decide

/-! ### Claim C7: equivalence of the two construction paths -/

/-- Final value held by a vector attribute after `set_nc`: the NaN-filtered
i-th row when the field is present, an empty list otherwise. -/
def ncVecAttr (d : Dict) (i : ℕ) (p : String) : Val :=
  match afind p d with
  | some v => rowFilterNan (v.index i)
  | Option.none => Val.vlist []

theorem afind_flatMap_not_mem (g : String → List (String × Val))
    (hkey : ∀ q e, e ∈ g q → e.1 = q) (p : String) (l : List String)
    (hp : p ∉ l) : afind p (l.flatMap g) = Option.none := by
  refine afind_none_of_keys (fun e he => ?_)
  obtain ⟨q, hq, heq⟩ := List.mem_flatMap.mp he
  rw [hkey q e heq]
  exact fun h => hp (h ▸ hq)

theorem afind_flatMap_mem (g : String → List (String × Val))
    (hkey : ∀ q e, e ∈ g q → e.1 = q) (p : String) :
    ∀ (l : List String), p ∈ l → afind p (l.flatMap g) = afind p (g p)
  | [], hp => absurd hp (List.not_mem_nil p)
  | a :: l, hp => by
      rw [List.flatMap_cons]
      by_cases ha : a = p
      · subst ha
        cases hfind : afind a (g a) with
        | some v => exact afind_append_some hfind
        | none =>
            rw [afind_append_none _ hfind]
            by_cases hl : a ∈ l
            · rw [afind_flatMap_mem g hkey a l hl, hfind]
            · exact afind_flatMap_not_mem g hkey a l hl
      · have hga : afind p (g a) = Option.none :=
          afind_none_of_keys (fun e he => by rw [hkey a e he]; exact ha)
        rw [afind_append_none _ hga]
        exact afind_flatMap_mem g hkey p l (by
          rcases List.mem_cons.mp hp with h | h
          · exact absurd h.symm ha
          · exact h)

/-- Keys written by `ncVecWrites` all equal the parameter, provided `slist`
is itself among the requested vector parameters (so that the derived-slist
branch is dead). -/
theorem ncVecWrites_keys (d : Dict) (i : ℕ) (vp : List String)
    (hsl : "slist" ∈ vp) (q : String) (e : String × Val)
    (he : e ∈ ncVecWrites d i vp q) : e.1 = q := by
  unfold ncVecWrites at he
  cases hfind : afind q d with
  | some v =>
      rw [hfind] at he
      have hcond : ¬("slist" ∉ vp ∧ q = "v") := fun h => h.1 hsl
      simp only [hcond, if_false, List.nil_append] at he
      rcases List.mem_cons.mp he with h | h
      · rw [h]
      · rcases List.mem_cons.mp h with h2 | h2
        · rw [h2]
        · exact absurd h2 (List.not_mem_nil e)
  | none =>
      rw [hfind] at he
      rcases List.mem_cons.mp he with h | h
      · rw [h]
      · exact absurd h (List.not_mem_nil e)

/-- The `time` argument wins on a beam built by `set_nc` as well. -/
theorem Beam.set_nc_get_time (t : Val) (d : Dict) (i : ℕ) (sp vp : List String) :
    (Beam.set_nc t d i sp vp).get "time" = some t := by
  simp [Beam.set_nc, Beam.get, afind]

/-- Lookup of a vector parameter in a beam built by `set_nc`: the last write
(the NaN-filtered row) wins. -/
theorem Beam.set_nc_get_vec (t : Val) (d : Dict) (i : ℕ) (sp vp : List String)
    (p : String) (hsl : "slist" ∈ vp) (hp : p ∈ vp) (hne : p ≠ "time") :
    (Beam.set_nc t d i sp vp).get p = some (ncVecAttr d i p) := by
  simp only [Beam.set_nc, Beam.get, afind, hne.symm, if_false]
  rw [List.reverse_flatMap]
  have hkey : ∀ q e, e ∈ (List.reverse ∘ ncVecWrites d i vp) q → e.1 = q :=
    fun q e he => ncVecWrites_keys d i vp hsl q e (List.mem_reverse.mp he)
  have hmem : p ∈ vp.reverse := List.mem_reverse.mpr hp
  refine afind_append_some ?_
  rw [afind_flatMap_mem (List.reverse ∘ ncVecWrites d i vp) hkey p vp.reverse hmem]
  show afind p (ncVecWrites d i vp p).reverse = some (ncVecAttr d i p)
  unfold ncVecWrites ncVecAttr
  cases hfind : afind p d with
  | some v =>
      have hcond : ¬("slist" ∉ vp ∧ p = "v") := fun h => h.1 hsl
      simp [hcond, afind]
  | none => simp [afind]

/-- Lookup of a scalar parameter (not also vector) in a beam built by
`set_nc`. -/
theorem Beam.set_nc_get_scal (t : Val) (d : Dict) (i : ℕ) (sp vp : List String)
    (p : String) (hsl : "slist" ∈ vp) (hp : p ∈ sp) (hvp : p ∉ vp)
    (hne : p ≠ "time") :
    (Beam.set_nc t d i sp vp).get p = some (ncScalAttr d i p) := by
  simp only [Beam.set_nc, Beam.get, afind, hne.symm, if_false]
  rw [List.reverse_flatMap]
  have hkey : ∀ q e, e ∈ (List.reverse ∘ ncVecWrites d i vp) q → e.1 = q :=
    fun q e he => ncVecWrites_keys d i vp hsl q e (List.mem_reverse.mp he)
  rw [afind_append_none _
    (afind_flatMap_not_mem (List.reverse ∘ ncVecWrites d i vp) hkey p vp.reverse
      (fun h => hvp (List.mem_reverse.mp h)))]
  exact afind_keyfun (ncScalAttr d i) p sp.reverse (List.mem_reverse.mpr hp)

/-- A parameter in neither list and distinct from `time` is absent after
`set_nc`. -/
theorem Beam.set_nc_get_none (t : Val) (d : Dict) (i : ℕ) (sp vp : List String)
    (p : String) (hsl : "slist" ∈ vp) (hp : p ∉ sp) (hvp : p ∉ vp)
    (hne : p ≠ "time") :
    (Beam.set_nc t d i sp vp).get p = Option.none := by
  simp only [Beam.set_nc, Beam.get, afind, hne.symm, if_false]
  rw [List.reverse_flatMap]
  have hkey : ∀ q e, e ∈ (List.reverse ∘ ncVecWrites d i vp) q → e.1 = q :=
    fun q e he => ncVecWrites_keys d i vp hsl q e (List.mem_reverse.mp he)
  rw [afind_append_none _
    (afind_flatMap_not_mem (List.reverse ∘ ncVecWrites d i vp) hkey p vp.reverse
      (fun h => hvp (List.mem_reverse.mp h)))]
  exact afind_keyfun_none (ncScalAttr d i) p sp.reverse (fun h => hp (List.mem_reverse.mp h))

/-- Correspondence of one scalar field between a record dict and row i of a
columnar record set: both absent, or the record value is a scalar equal to
the i-th entry of the column. -/
def scalMatch (d1 d2 : Dict) (i : ℕ) (p : String) : Bool :=
  match afind p d1, afind p d2 with
  | Option.none, Option.none => true
  | some (Val.atom x), some (Val.vlist col) => decide (col.getD i Atom.pynone = x)
  | _, _ => false

/-- Correspondence of one vector field: both absent, or the record value is
the i-th row of the 2-d columnar array, and that row carries no NaN. -/
def vecMatch (d1 d2 : Dict) (i : ℕ) (p : String) : Bool :=
  match afind p d1, afind p d2 with
  | Option.none, Option.none => true
  | some (Val.vlist r), some (Val.mat rows) =>
      decide (rows.getD i [] = r) && r.all (fun a => decide (a ≠ Atom.nan))
  | _, _ => false

/-- C7 (amended): given corresponding inputs (each requested scalar field of
the record dict equals the i-th entry of its column, each requested vector
field is the NaN-free i-th row of its 2-d array), with `slist` among the
requested vector fields, and with the raw `scan` value already normalized to
0 or 1, `Beam.set` and `Beam.set_nc` produce beams with identical attribute
tables.  (Without the `scan` proviso the paths disagree: `set_nc` skips the
normalization, see `set_nc_scan_not_normalized`.) -/
theorem set_set_nc_equiv (t : Val) (d1 d2 : Dict) (i : ℕ) (sp vp : List String)
    (hsl : "slist" ∈ vp)
    (hs : ∀ p ∈ sp, scalMatch d1 d2 i p = true)
    (hscan : ∀ x, afind "scan" d1 = some x → x = vnum 0 ∨ x = vnum 1)
    (hv : ∀ p ∈ vp, vecMatch d1 d2 i p = true) :
    ∀ p, (Beam.set t d1 sp vp).get p = (Beam.set_nc t d2 i sp vp).get p := by
  intro p
  by_cases hpt : p = "time"
  · subst hpt
    rw [Beam.set_get_time, Beam.set_nc_get_time]
  · by_cases hpv : p ∈ vp
    · rw [Beam.set_get_vec t d1 sp vp p hpv hpt,
        Beam.set_nc_get_vec t d2 i sp vp p hsl hpv hpt]
      have hm := hv p hpv
      unfold vecMatch at hm
      unfold vecAttr ncVecAttr
      cases h1 : afind p d1 with
      | none =>
          cases h2 : afind p d2 with
          | none => rfl
          | some v2 => rw [h1, h2] at hm; cases v2 <;> simp at hm
      | some v1 =>
          cases h2 : afind p d2 with
          | none => rw [h1, h2] at hm; cases v1 <;> simp at hm
          | some v2 =>
              rw [h1, h2] at hm
              cases v1 with
              | atom a => cases v2 <;> simp at hm
              | mat m => cases v2 <;> simp at hm
              | vlist r =>
                  cases v2 with
                  | atom a => simp at hm
                  | vlist l => simp at hm
                  | mat rows =>
                      simp only [Bool.and_eq_true, decide_eq_true_eq,
                        List.all_eq_true] at hm
                      obtain ⟨hrow, hnn⟩ := hm
                      simp only [Val.index, rowFilterNan, hrow]
                      rw [List.filter_eq_self.mpr
                        (fun a ha => decide_eq_true (hnn a ha))]
    · by_cases hps : p ∈ sp
      · rw [Beam.set_get_scal t d1 sp vp p hps hpv hpt,
          Beam.set_nc_get_scal t d2 i sp vp p hsl hps hpv hpt]
        have hm := hs p hps
        unfold scalMatch at hm
        unfold scalAttr ncScalAttr
        cases h1 : afind p d1 with
        | none =>
            cases h2 : afind p d2 with
            | none => rfl
            | some v2 => rw [h1, h2] at hm; cases v2 <;> simp at hm
        | some v1 =>
            cases h2 : afind p d2 with
            | none => rw [h1, h2] at hm; cases v1 <;> simp at hm
            | some v2 =>
                rw [h1, h2] at hm
                cases v1 with
                | vlist r => cases v2 <;> simp at hm
                | mat m => cases v2 <;> simp at hm
                | atom x =>
                    cases v2 with
                    | atom a => simp at hm
                    | mat rows => simp at hm
                    | vlist col =>
                        simp only [decide_eq_true_eq] at hm
                        simp only [Val.index, hm]
                        by_cases hscanp : p = "scan"
                        · subst hscanp
                          rcases hscan (Val.atom x) h1 with h01 | h01 <;>
                            rw [h01] <;> simp
                        · rw [if_neg (fun hc => hscanp hc.1)]
      · rw [Beam.set_get_none t d1 sp vp p hps hpv hpt,
          Beam.set_nc_get_none t d2 i sp vp p hsl hps hpv hpt]

/-- Witness for C7 (amended) on a matching one-row columnar input, checked
at the `scan`, `v`, `slist` and `time` attributes. -/
theorem set_set_nc_equiv_witness :
    ((Beam.set vnone
        [("scan", vnum 1), ("slist", Val.vlist [Atom.num 0]),
         ("v", Val.vlist [Atom.num 25])] ["scan"] ["slist", "v"]).get "scan" =
      (Beam.set_nc vnone
        [("scan", Val.vlist [Atom.num 1]), ("slist", Val.mat [[Atom.num 0]]),
         ("v", Val.mat [[Atom.num 25]])] 0 ["scan"] ["slist", "v"]).get "scan") ∧
    ((Beam.set vnone
        [("scan", vnum 1), ("slist", Val.vlist [Atom.num 0]),
         ("v", Val.vlist [Atom.num 25])] ["scan"] ["slist", "v"]).get "v" =
      (Beam.set_nc vnone
        [("scan", Val.vlist [Atom.num 1]), ("slist", Val.mat [[Atom.num 0]]),
         ("v", Val.mat [[Atom.num 25]])] 0 ["scan"] ["slist", "v"]).get "v") ∧
    ((Beam.set vnone
        [("scan", vnum 1), ("slist", Val.vlist [Atom.num 0]),
         ("v", Val.vlist [Atom.num 25])] ["scan"] ["slist", "v"]).get "time" =
      (Beam.set_nc vnone
        [("scan", Val.vlist [Atom.num 1]), ("slist", Val.mat [[Atom.num 0]]),
         ("v", Val.mat [[Atom.num 25]])] 0 ["scan"] ["slist", "v"]).get "time") :=
  ⟨set_set_nc_equiv vnone
      [("scan", vnum 1), ("slist", Val.vlist [Atom.num 0]),
       ("v", Val.vlist [Atom.num 25])]
      [("scan", Val.vlist [Atom.num 1]), ("slist", Val.mat [[Atom.num 0]]),
       ("v", Val.mat [[Atom.num 25]])] 0 ["scan"] ["slist", "v"]
      (by decide) (by decide) (by decide) (by decide) "scan",
   set_set_nc_equiv vnone
      [("scan", vnum 1), ("slist", Val.vlist [Atom.num 0]),
       ("v", Val.vlist [Atom.num 25])]
      [("scan", Val.vlist [Atom.num 1]), ("slist", Val.mat [[Atom.num 0]]),
       ("v", Val.mat [[Atom.num 25]])] 0 ["scan"] ["slist", "v"]
      (by decide) (by decide) (by decide) (by decide) "v",
   set_set_nc_equiv vnone
      [("scan", vnum 1), ("slist", Val.vlist [Atom.num 0]),
       ("v", Val.vlist [Atom.num 25])]
      [("scan", Val.vlist [Atom.num 1]), ("slist", Val.mat [[Atom.num 0]]),
       ("v", Val.mat [[Atom.num 25]])] 0 ["scan"] ["slist", "v"]
      (by decide) (by decide) (by decide) (by decide) "time"⟩

/-- C7 counterexample to the claim as stated: on corresponding inputs whose
raw `scan` value is 7 (`scalMatch` / `vecMatch` hold, so the inputs are
equivalent), `Beam.set` normalizes the flag to 1 while `Beam.set_nc` stores
7 verbatim, so the two construction paths disagree. -/
theorem set_nc_scan_not_normalized :
    scalMatch [("scan", vnum 7), ("slist", Val.vlist [Atom.num 0])]
      [("scan", Val.vlist [Atom.num 7]), ("slist", Val.mat [[Atom.num 0]])] 0 "scan" = true ∧
    vecMatch [("scan", vnum 7), ("slist", Val.vlist [Atom.num 0])]
      [("scan", Val.vlist [Atom.num 7]), ("slist", Val.mat [[Atom.num 0]])] 0 "slist" = true ∧
    (Beam.set vnone [("scan", vnum 7), ("slist", Val.vlist [Atom.num 0])]
      ["scan"] ["slist"]).attr "scan" = vnum 1 ∧
    (Beam.set_nc vnone [("scan", Val.vlist [Atom.num 7]), ("slist", Val.mat [[Atom.num 0]])]
      0 ["scan"] ["slist"]).attr "scan" = vnum 7 ∧
    (vnum 1 : Val) ≠ vnum 7 := by
  refine ⟨by decide, by decide, by decide, by decide, by decide⟩

/-! ### Claims C4 and C5: the three-scan merge heuristic -/

/-- C4: whenever reconstruction yields at least three scans, `pandas_to_scans`
succeeds; if the beam counts of the first two scans sum to the beam count of
the third, the first two are replaced by a single merged scan whose beams
are the concatenation and whose derived fields are recomputed by
`update_time`, with all later scans shifted down one position (`drop 2`);
otherwise the scan list is returned unchanged.  The branch condition reads
only the first three scans. -/
theorem pandas_to_scans_merge (t : Table) (smode : String)
    (h3 : 3 ≤ (reconstructScans t smode s_def v_def).1.length) :
    (let scans := (reconstructScans t smode s_def v_def).1
     let bmax := (reconstructScans t smode s_def v_def).2
     (scans[0]!.beams.length + scans[1]!.beams.length = scans[2]!.beams.length →
        pandas_to_scans t smode s_def v_def =
          Except.ok
            (Scan.update_time { Scan.init scans[0]!.s_mode with
                beams := scans[0]!.beams ++ scans[1]!.beams } :: scans.drop 2,
             bmax)) ∧
     (scans[0]!.beams.length + scans[1]!.beams.length ≠ scans[2]!.beams.length →
        pandas_to_scans t smode s_def v_def = Except.ok (scans, bmax))) := by
  refine ⟨fun hc => ?_, fun hc => ?_⟩
  · unfold pandas_to_scans
    rw [if_pos h3, if_pos hc]
    simp
  · unfold pandas_to_scans
    rw [if_pos h3, if_neg hc]
    simp

/-- A three-scan synthetic table (three `scnum` groups of one beam each). -/
def wtbl3 : Table :=
  [("bmnum", [Atom.num 0, Atom.num 0, Atom.num 0]),
   ("noise.sky", [Atom.num 5, Atom.num 5, Atom.num 5]),
   ("tfreq", [Atom.num 10, Atom.num 10, Atom.num 10]),
   ("scan", [Atom.num 1, Atom.num 1, Atom.num 1]),
   ("nrang", [Atom.num 75, Atom.num 75, Atom.num 75]),
   ("time", [Atom.dtime 0, Atom.dtime 1, Atom.dtime 2]),
   ("v", [Atom.num 1, Atom.num 2, Atom.num 3]),
   ("w_l", [Atom.num 1, Atom.num 1, Atom.num 1]),
   ("gflg", [Atom.num 0, Atom.num 0, Atom.num 0]),
   ("p_l", [Atom.num 3, Atom.num 3, Atom.num 3]),
   ("slist", [Atom.num 0, Atom.num 0, Atom.num 0]),
   ("v_e", [Atom.num 2, Atom.num 2, Atom.num 2]),
   ("phi0", [Atom.num 4, Atom.num 4, Atom.num 4]),
   ("elv", [Atom.num 6, Atom.num 6, Atom.num 6]),
   ("scnum", [Atom.num 0, Atom.num 1, Atom.num 2]),
   ("sbnum", [Atom.num 0, Atom.num 0, Atom.num 0])]

/-- Witness for C4 on a concrete table reconstructing to three scans. -/
theorem pandas_to_scans_merge_witness :
    3 ≤ (reconstructScans wtbl3 "normal" s_def v_def).1.length ∧
    (let scans := (reconstructScans wtbl3 "normal" s_def v_def).1
     let bmax := (reconstructScans wtbl3 "normal" s_def v_def).2
     (scans[0]!.beams.length + scans[1]!.beams.length = scans[2]!.beams.length →
        pandas_to_scans wtbl3 "normal" s_def v_def =
          Except.ok
            (Scan.update_time { Scan.init scans[0]!.s_mode with
                beams := scans[0]!.beams ++ scans[1]!.beams } :: scans.drop 2,
             bmax)) ∧
     (scans[0]!.beams.length + scans[1]!.beams.length ≠ scans[2]!.beams.length →
        pandas_to_scans wtbl3 "normal" s_def v_def = Except.ok (scans, bmax))) :=
  ⟨by decide, pandas_to_scans_merge wtbl3 "normal" (by decide)⟩

/-- A one-scan synthetic table (a single `scnum` group with one beam). -/
def wtbl1 : Table :=
  [("bmnum", [Atom.num 0]),
   ("noise.sky", [Atom.num 5]),
   ("tfreq", [Atom.num 10]),
   ("scan", [Atom.num 1]),
   ("nrang", [Atom.num 75]),
   ("time", [Atom.dtime 0]),
   ("v", [Atom.num 1]),
   ("w_l", [Atom.num 1]),
   ("gflg", [Atom.num 0]),
   ("p_l", [Atom.num 3]),
   ("slist", [Atom.num 0]),
   ("v_e", [Atom.num 2]),
   ("phi0", [Atom.num 4]),
   ("elv", [Atom.num 6]),
   ("scnum", [Atom.num 0]),
   ("sbnum", [Atom.num 0])]

/-- C5 (code evaluation at the failing input): on a table that reconstructs
to a single scan, the unguarded `scans[0]` / `scans[2]` reads of the merge
heuristic raise an uncaught `IndexError` instead of the silent no-op the
claim demands. -/
theorem pandas_to_scans_short_raises :
    pandas_to_scans wtbl1 "normal" s_def v_def = Except.error "IndexError" ∧
    (reconstructScans wtbl1 "normal" s_def v_def).1.length = 1 := by
  constructor
  · rfl
  · decide

/-! ### Claim C9: every column padded to a common row count -/

/-- Keys (column names) of a table. -/
def tkeys (t : Table) : List String := t.map Prod.fst

/-- Beams whose vector fields are lists no longer than the gate-index list:
the fragment on which the padding scheme of the flatten code is coherent. -/
def wfLenBeam (vp : List String) (b : Beam) : Bool :=
  vp.all (fun p =>
    match b.get p with
    | some (Val.vlist l) => decide (l.length ≤ gateCount b)
    | _ => false)

/-- All columns at most as long as the `slist` column. -/
abbrev TableLe (t : Table) : Prop :=
  "slist" ∈ tkeys t ∧ ∀ e ∈ t, e.2.length ≤ (colOf t "slist").length

/-- All columns exactly as long as the `slist` column. -/
abbrev TableEqLen (t : Table) : Prop :=
  "slist" ∈ tkeys t ∧ ∀ e ∈ t, e.2.length = (colOf t "slist").length

theorem afind_pad_aux (L : ℕ) (c : String) :
    ∀ (t : Table),
      afind c (t.map (fun e =>
          (e.1, e.2 ++ List.replicate (L - e.2.length) Atom.nan))) =
        Option.map (fun col => col ++ List.replicate (L - col.length) Atom.nan)
          (afind c t)
  | [] => rfl
  | (c1, x) :: t => by
      by_cases h : c1 = c
      · subst h; simp [afind]
      · simp only [List.map_cons, afind, h, if_false]
        exact afind_pad_aux L c t

theorem afind_mask_aux (m : List Bool) (c : String) :
    ∀ (t : Table),
      afind c (t.map (fun e => (e.1, maskFilter m e.2))) =
        Option.map (maskFilter m) (afind c t)
  | [] => rfl
  | (c1, x) :: t => by
      by_cases h : c1 = c
      · subst h; simp [afind]
      · simp only [List.map_cons, afind, h, if_false]
        exact afind_mask_aux m c t

theorem afind_map_ext (g : String → List Atom) (c : String) :
    ∀ (t : Table),
      afind c (t.map (fun e => (e.1, e.2 ++ g e.1))) =
        Option.map (fun col => col ++ g c) (afind c t)
  | [] => rfl
  | (c1, x) :: t => by
      by_cases h : c1 = c
      · subst h; simp [afind]
      · simp only [List.map_cons, afind, h, if_false]
        exact afind_map_ext g c t

theorem tkeys_pad_aux (L : ℕ) :
    ∀ (t : Table),
      (t.map (fun e =>
          (e.1, e.2 ++ List.replicate (L - e.2.length) Atom.nan))).map Prod.fst =
        t.map Prod.fst
  | [] => rfl
  | e :: t => by
      simp only [List.map_cons]
      rw [tkeys_pad_aux L t]

theorem tkeys_mask_aux (m : List Bool) :
    ∀ (t : Table),
      (t.map (fun e => (e.1, maskFilter m e.2))).map Prod.fst = t.map Prod.fst
  | [] => rfl
  | e :: t => by
      simp only [List.map_cons]
      rw [tkeys_mask_aux m t]

theorem tkeys_map_ext (g : String → List Atom) :
    ∀ (t : Table), tkeys (t.map (fun e => (e.1, e.2 ++ g e.1))) = tkeys t
  | [] => rfl
  | e :: t => by
      simp only [tkeys, List.map_cons]
      have := tkeys_map_ext g t
      unfold tkeys at this
      rw [this]

theorem afind_of_mem_tkeys {c : String} :
    ∀ {t : Table}, c ∈ tkeys t → ∃ col, afind c t = some col
  | [], h => absurd h (List.not_mem_nil c)
  | (c1, x) :: t, h => by
      by_cases hc : c1 = c
      · subst hc; exact ⟨x, by simp [afind]⟩
      · have : c ∈ tkeys t := by
          rcases List.mem_cons.mp h with h1 | h1
          · exact absurd h1.symm hc
          · exact h1
        obtain ⟨col, hcol⟩ := afind_of_mem_tkeys this
        exact ⟨col, by simp only [afind, hc, if_false]; exact hcol⟩

/-- Padding establishes the common row count on any table whose columns are
bounded by the `slist` column. -/
theorem padTable_eqlen {t : Table} (h : TableLe t) : TableEqLen (padTable t) := by
  obtain ⟨hk, hle⟩ := h
  obtain ⟨sl, hfind⟩ := afind_of_mem_tkeys hk
  have hcol : colOf t "slist" = sl := by simp [colOf, hfind]
  have hpad : colOf (padTable t) "slist" = sl := by
    unfold padTable colOf
    rw [afind_pad_aux, hfind]
    simp [colOf, hfind]
  refine ⟨?_, ?_⟩
  · unfold padTable tkeys
    rw [tkeys_pad_aux]
    exact hk
  · intro e he
    rw [hpad]
    unfold padTable at he
    obtain ⟨e0, he0, heq⟩ := List.mem_map.mp he
    rw [← heq]
    have hb : e0.2.length ≤ sl.length := hcol ▸ hle e0 he0
    simp only [List.length_append, List.length_replicate, hcol]
    exact Nat.add_sub_cancel' hb

theorem wfLenBeam_le {vp : List String} {b : Beam} (hw : wfLenBeam vp b = true) :
    ∀ c ∈ vp, ((b.attr c).elems).length ≤ gateCount b := by
  intro c hc
  have hm := List.all_eq_true.mp hw c hc
  cases hg : b.get c with
  | none => rw [hg] at hm; simp at hm
  | some v =>
      cases v with
      | atom a => rw [hg] at hm; simp at hm
      | mat m => rw [hg] at hm; simp at hm
      | vlist l =>
          rw [hg] at hm
          simp only [decide_eq_true_eq] at hm
          simpa [Beam.attr, hg, Val.elems] using hm

theorem length_flatMap_le (f : Beam → List Atom) :
    ∀ (bs : List Beam), (∀ b ∈ bs, (f b).length ≤ gateCount b) →
      (bs.flatMap f).length ≤ (bs.map gateCount).sum
  | [], _ => Nat.le_refl 0
  | b :: bs, h => by
      simp only [List.flatMap_cons, List.length_append, List.map_cons, List.sum_cons]
      exact Nat.add_le_add (h b (List.mem_cons_self b bs))
        (length_flatMap_le f bs (fun x hx => h x (List.mem_cons_of_mem b hx)))

theorem length_flatMap_eq (f : Beam → List Atom) :
    ∀ (bs : List Beam), (∀ b ∈ bs, (f b).length = gateCount b) →
      (bs.flatMap f).length = (bs.map gateCount).sum
  | [], _ => rfl
  | b :: bs, h => by
      simp only [List.flatMap_cons, List.length_append, List.map_cons, List.sum_cons]
      rw [h b (List.mem_cons_self b bs),
        length_flatMap_eq f bs (fun x hx => h x (List.mem_cons_of_mem b hx))]

/-- The unpadded beam-flatten table is bounded by its `slist` column. -/
theorem convert_raw_le (beams : List Beam) (sp vp : List String)
    (hsl : "slist" ∈ vp)
    (hb : ∀ b ∈ beams, wfLenBeam vp b = true) :
    TableLe ((sp ++ vp).map (fun c => (c, rawCol beams vp c))) := by
  have hmem : "slist" ∈ sp ++ vp := List.mem_append.mpr (Or.inr hsl)
  have hslcol :
      colOf ((sp ++ vp).map (fun c => (c, rawCol beams vp c))) "slist" =
        rawCol beams vp "slist" := by
    unfold colOf
    rw [afind_keyfun (rawCol beams vp) "slist" (sp ++ vp) hmem]
    rfl
  have hsll : (rawCol beams vp "slist").length = (beams.map gateCount).sum := by
    unfold rawCol
    rw [if_pos hsl]
    exact length_flatMap_eq _ beams (fun b _ => rfl)
  constructor
  · unfold tkeys
    simpa [List.map_map, Function.comp] using hmem
  · intro e he
    obtain ⟨c, hc, heq⟩ := List.mem_map.mp he
    subst heq
    rw [hslcol, hsll]
    by_cases hcv : c ∈ vp
    · unfold rawCol
      rw [if_pos hcv]
      exact length_flatMap_le _ beams (fun b hbm => wfLenBeam_le (hb b hbm) c hcv)
    · unfold rawCol
      rw [if_neg hcv]
      refine Nat.le_of_eq (length_flatMap_eq _ beams (fun b _ => ?_))
      exact List.length_replicate _ _

/-- Per-column contribution of one beam is bounded by its gate count. -/
theorem beamColExt_le (sp vp : List String) (idn idh : ℕ) {b : Beam}
    (hw : wfLenBeam vp b = true) (c : String) :
    (beamColExt sp vp idn idh b c).length ≤ gateCount b := by
  unfold beamColExt
  by_cases h1 : c = "scnum"
  · rw [if_pos h1]; exact Nat.le_of_eq (List.length_replicate _ _)
  rw [if_neg h1]
  by_cases h2 : c = "sbnum"
  · rw [if_pos h2]; exact Nat.le_of_eq (List.length_replicate _ _)
  rw [if_neg h2]
  by_cases h3 : c ∈ vp
  · rw [if_pos h3]; exact wfLenBeam_le hw c h3
  rw [if_neg h3]
  by_cases h4 : c ∈ sp
  · rw [if_pos h4]; exact Nat.le_of_eq (List.length_replicate _ _)
  · rw [if_neg h4]; exact Nat.zero_le _

/-- The `slist` column contribution of one beam is exactly its gate count. -/
theorem beamColExt_slist (sp vp : List String) (idn idh : ℕ) (b : Beam)
    (hsl : "slist" ∈ vp) :
    beamColExt sp vp idn idh b "slist" = (b.attr "slist").elems := by
  unfold beamColExt
  rw [if_neg (by decide), if_neg (by decide), if_pos hsl]

/-- Appending one beam to every column preserves the `slist` bound. -/
theorem appendBeam_le (sp vp : List String) (idn idh : ℕ) {b : Beam} {t : Table}
    (hsl : "slist" ∈ vp) (hw : wfLenBeam vp b = true) (h : TableLe t) :
    TableLe (appendBeam sp vp idn idh b t) := by
  obtain ⟨hk, hle⟩ := h
  obtain ⟨sl, hfind⟩ := afind_of_mem_tkeys hk
  have hcol : colOf t "slist" = sl := by simp [colOf, hfind]
  have hslist :
      colOf (appendBeam sp vp idn idh b t) "slist" =
        sl ++ beamColExt sp vp idn idh b "slist" := by
    unfold appendBeam colOf
    rw [afind_map_ext, hfind]
    rfl
  refine ⟨?_, ?_⟩
  · unfold appendBeam
    rw [tkeys_map_ext]
    exact hk
  · intro e he
    unfold appendBeam at he
    obtain ⟨e0, he0, heq⟩ := List.mem_map.mp he
    rw [← heq, hslist]
    simp only [List.length_append]
    rw [beamColExt_slist sp vp idn idh b hsl]
    refine Nat.add_le_add (hcol ▸ hle e0 he0) ?_
    exact beamColExt_le sp vp idn idh hw e0.1

theorem foldl_preserve {β : Type} (P : Table → Prop) (f : β → Table → Table) :
    ∀ (xs : List β), (∀ x ∈ xs, ∀ t, P t → P (f x t)) →
      ∀ t0, P t0 → P (xs.foldl (fun acc x => f x acc) t0)
  | [], _, _, h0 => h0
  | x :: xs, hf, t0, h0 => by
      simp only [List.foldl_cons]
      exact foldl_preserve P f xs (fun y hy => hf y (List.mem_cons_of_mem x hy)) _
        (hf x (List.mem_cons_self x xs) t0 h0)

theorem snd_mem_of_mem_enumFrom {α : Type} :
    ∀ (l : List α) (n : ℕ) (ix : ℕ × α), ix ∈ l.enumFrom n → ix.2 ∈ l
  | [], _, _, h => absurd h (List.not_mem_nil _)
  | a :: l, n, ix, h => by
      rcases List.mem_cons.mp h with h1 | h1
      · subst h1; exact List.mem_cons_self a l
      · exact List.mem_cons_of_mem a (snd_mem_of_mem_enumFrom l (n + 1) ix h1)

set_option maxHeartbeats 1000000 in
/-- Processing one scan preserves the equal-column-length invariant: member
beams only extend columns within the `slist` bound, and the per-scan padding
restores exact equality. -/
theorem scanFold_eqlen (sp vp : List String) (idn : ℕ) (s : Scan) {t : Table}
    (hsl : "slist" ∈ vp) (hw : ∀ b ∈ s.beams, wfLenBeam vp b = true)
    (h : TableEqLen t) : TableEqLen (scanFold sp vp idn s t) := by
  unfold scanFold
  refine padTable_eqlen ?_
  exact foldl_preserve TableLe
    (fun ib acc => appendBeam sp vp idn ib.1 ib.2 acc) s.beams.enum
    (fun ib hib acc hacc =>
      appendBeam_le sp vp idn ib.1 hsl
        (hw ib.2 (snd_mem_of_mem_enumFrom s.beams 0 ib hib)) hacc)
    t ⟨h.1, fun e he => Nat.le_of_eq (h.2 e he)⟩

/-- The initial empty table satisfies the invariant. -/
theorem initTable_eqlen (kl : List String) (hsl : "slist" ∈ kl) :
    TableEqLen (initTable kl) := by
  have hfind : afind "slist" (initTable kl) = some [] :=
    afind_keyfun (fun _ => ([] : List Atom)) "slist" kl hsl
  refine ⟨?_, ?_⟩
  · unfold initTable tkeys
    simpa [List.map_map, Function.comp] using hsl
  · intro e he
    obtain ⟨c, hc, heq⟩ := List.mem_map.mp he
    rw [← heq]
    simp [colOf, hfind]

/-- C9 (amended): provided every vector field of every flattened beam is a
list at most as long as its gate-index list, every column of the table
produced by `convert_to_pandas` (and of the table produced by
`scans_to_pandas`) has the same row count, namely the length of the `slist`
column, which the padding step uses as target length and which is then the
longest column.  (Without that proviso a vector column longer than `slist`
is never padded, the column lengths diverge, and the pandas constructor
raises: see `convert_to_pandas_ragged`.) -/
theorem columns_common_length (beams : List Beam) (scans : List Scan)
    (sp vp : List String) (st : ℕ) (hsl : "slist" ∈ vp)
    (hb : ∀ b ∈ beams, wfLenBeam vp b = true)
    (hs : ∀ s ∈ scans, ∀ b ∈ s.beams, wfLenBeam vp b = true) :
    (∀ e ∈ convert_to_pandas beams sp vp,
        e.2.length = (colOf (convert_to_pandas beams sp vp) "slist").length) ∧
    (∀ e ∈ scans_to_pandas scans sp vp st,
        e.2.length = (colOf (scans_to_pandas scans sp vp st) "slist").length) := by
  constructor
  · have hc : TableEqLen (convert_to_pandas beams sp vp) := by
      unfold convert_to_pandas
      exact padTable_eqlen (convert_raw_le beams sp vp hsl hb)
    exact hc.2
  · have hkl : "slist" ∈ sp ++ vp ++ ["scnum", "sbnum"] :=
      List.mem_append.mpr (Or.inl (List.mem_append.mpr (Or.inr hsl)))
    have hc : TableEqLen (scans_to_pandas scans sp vp st) := by
      unfold scans_to_pandas
      exact foldl_preserve TableEqLen
        (fun is acc => scanFold sp vp (is.1 + st) is.2 acc) scans.enum
        (fun is his acc hacc =>
          scanFold_eqlen sp vp (is.1 + st) is.2 hsl
            (hs is.2 (snd_mem_of_mem_enumFrom scans 0 is his)) hacc)
        _ (initTable_eqlen _ hkl)
    exact hc.2

/-- Witness for C9 on a one-beam, one-scan instance. -/
theorem columns_common_length_witness :
    ("slist" ∈ v_def ∧
      (∀ b ∈ [Beam.mk [("slist", Val.vlist [Atom.num 0]), ("v", Val.vlist [Atom.num 9]),
        ("w_l", Val.vlist [Atom.num 1]), ("gflg", Val.vlist [Atom.num 0]),
        ("p_l", Val.vlist [Atom.num 3]), ("v_e", Val.vlist [Atom.num 2]),
        ("phi0", Val.vlist [Atom.num 4]), ("elv", Val.vlist [Atom.num 6])]],
        wfLenBeam v_def b = true)) ∧
    (∀ e ∈ convert_to_pandas [Beam.mk [("slist", Val.vlist [Atom.num 0]),
        ("v", Val.vlist [Atom.num 9]), ("w_l", Val.vlist [Atom.num 1]),
        ("gflg", Val.vlist [Atom.num 0]), ("p_l", Val.vlist [Atom.num 3]),
        ("v_e", Val.vlist [Atom.num 2]), ("phi0", Val.vlist [Atom.num 4]),
        ("elv", Val.vlist [Atom.num 6])]] s_def v_def,
      e.2.length =
        (colOf (convert_to_pandas [Beam.mk [("slist", Val.vlist [Atom.num 0]),
          ("v", Val.vlist [Atom.num 9]), ("w_l", Val.vlist [Atom.num 1]),
          ("gflg", Val.vlist [Atom.num 0]), ("p_l", Val.vlist [Atom.num 3]),
          ("v_e", Val.vlist [Atom.num 2]), ("phi0", Val.vlist [Atom.num 4]),
          ("elv", Val.vlist [Atom.num 6])]] s_def v_def) "slist").length) :=
  ⟨⟨by decide, by decide⟩,
   (columns_common_length _ [] s_def v_def 0 (by decide) (by decide)
      (by simp)).1⟩

/-- C9 counterexample to the claim as stated: a beam whose `v` field is
longer than its gate-index list produces a `v` column that stays longer than
every other column (the code pads only up to the `slist` column length), so
the columns do not share a row count. -/
theorem convert_to_pandas_ragged :
    (colOf (convert_to_pandas
        [Beam.mk [("slist", Val.vlist [Atom.num 0]),
          ("v", Val.vlist [Atom.num 9, Atom.num 10])]] s_def v_def) "v").length = 2 ∧
    (colOf (convert_to_pandas
        [Beam.mk [("slist", Val.vlist [Atom.num 0]),
          ("v", Val.vlist [Atom.num 9, Atom.num 10])]] s_def v_def) "slist").length = 1 := by
  constructor <;> decide

/-! ### Claim C1: the beam flatten / unflatten round trip -/

/-- Per-beam segment of one table column: the own vector contents for a
vector parameter, the broadcast scalar for anything else. -/
def segCol (b : Beam) (c : String) : List Atom :=
  if c ∈ v_def then (b.attr c).elems
  else List.replicate (gateCount b) ((b.attr c).toAtom)

/-- The unpadded flatten table at the default parameter lists. -/
def rawT (bs : List Beam) : Table :=
  (s_def ++ v_def).map (fun c => (c, rawCol bs v_def c))

/-- The one-beam group table recovered by row filtering. -/
def segTbl (b : Beam) : Table :=
  (s_def ++ v_def).map (fun c => (c, segCol b c))

/-- Beam number of a well-formed beam. -/
def bmnumOf (b : Beam) : ℚ :=
  match b.get "bmnum" with
  | some (Val.atom (Atom.num k)) => k
  | _ => 0

/-- The `bmnum` table cell of a beam. -/
def keyAtom (b : Beam) : Atom := Atom.num (bmnumOf b)

/-- Well-formedness of one beam for the exact round trip: at least one gate,
every vector field a list exactly as long as the gate count, every scalar
field a scalar atom, a normalized scan flag, and a numeric beam number. -/
def wfBeam (b : Beam) : Bool :=
  decide (1 ≤ gateCount b) &&
  v_def.all (fun p =>
    match b.get p with
    | some (Val.vlist l) => decide (l.length = gateCount b)
    | _ => false) &&
  s_def.all (fun p =>
    match b.get p with
    | some (Val.atom _) => true
    | _ => false) &&
  (decide (b.attr "scan" = vnum 0) || decide (b.attr "scan" = vnum 1)) &&
  (match b.get "bmnum" with
    | some (Val.atom (Atom.num _)) => true
    | _ => false)

/-- Strictly increasing rational sequence. -/
def strictIncr : List ℚ → Bool
  | [] => true
  | [_] => true
  | a :: b :: r => decide (a < b) && strictIncr (b :: r)

/-- Round-trip well-formedness of a beam collection: well-formed beams in
strictly ascending beam-number order. -/
def wfBeams (bs : List Beam) : Bool :=
  bs.all wfBeam && strictIncr (bs.map bmnumOf)

theorem maskFilter_append {α : Type} :
    ∀ (m1 : List Bool) (xs1 : List α), m1.length = xs1.length →
      ∀ (m2 : List Bool) (xs2 : List α),
        maskFilter (m1 ++ m2) (xs1 ++ xs2) =
          maskFilter m1 xs1 ++ maskFilter m2 xs2 := by
  intro m1
  induction m1 with
  | nil =>
      intro xs1 h
      cases xs1 with
      | nil => intro m2 xs2; rfl
      | cons x xs => simp at h
  | cons bb m ih =>
      intro xs1 h
      cases xs1 with
      | nil => simp at h
      | cons x xs =>
          intro m2 xs2
          cases bb with
          | true =>
              simp only [List.cons_append, maskFilter, List.append_eq]
              rw [ih xs (by simpa using h) m2 xs2]
          | false =>
              simp only [List.cons_append, maskFilter, List.append_eq]
              exact ih xs (by simpa using h) m2 xs2

theorem maskFilter_all_true {α : Type} :
    ∀ (xs : List α), maskFilter (List.replicate xs.length true) xs = xs
  | [] => rfl
  | x :: xs => by
      simp only [List.length_cons, List.replicate_succ, maskFilter]
      rw [maskFilter_all_true xs]

theorem maskFilter_all_false {α : Type} :
    ∀ (m : List Bool), (∀ x ∈ m, x = false) → ∀ (xs : List α),
      maskFilter m xs = []
  | [], _, _ => rfl
  | bb :: m, h, xs => by
      have hb : bb = false := h bb (List.mem_cons_self bb m)
      subst hb
      cases xs with
      | nil => rfl
      | cons x xs =>
          simp only [maskFilter]
          exact maskFilter_all_false m
            (fun y hy => h y (List.mem_cons_of_mem false hy)) xs

theorem insertSD_self (x : Atom) (l : List Atom) : insertSD x (x :: l) = x :: l := by
  simp [insertSD]

theorem insertSD_before (x y : Atom) (l : List Atom) (hne : x ≠ y)
    (hle : atomLE x y = true) : insertSD x (y :: l) = x :: y :: l := by
  simp [insertSD, hne, hle]

theorem foldr_insertSD_block (x : Atom) (K : List Atom)
    (hx : insertSD x K = x :: K) :
    ∀ (n : ℕ), List.foldr insertSD K (List.replicate (n + 1) x) = x :: K
  | 0 => by simpa using hx
  | n + 1 => by
      rw [List.replicate_succ, List.foldr_cons, foldr_insertSD_block x K hx n]
      exact insertSD_self x K

theorem strictIncr_tail {a : ℚ} {l : List ℚ} (h : strictIncr (a :: l) = true) :
    strictIncr l = true := by
  cases l with
  | nil => rfl
  | cons b r =>
      simp only [strictIncr, Bool.and_eq_true] at h
      exact h.2

theorem strictIncr_head {a : ℚ} :
    ∀ {l : List ℚ}, strictIncr (a :: l) = true → ∀ q ∈ l, a < q := by
  intro l
  induction l generalizing a with
  | nil => intro _ q hq; exact absurd hq (List.not_mem_nil q)
  | cons b r ih =>
      intro h q hq
      simp only [strictIncr, Bool.and_eq_true, decide_eq_true_eq] at h
      rcases List.mem_cons.mp hq with hq | hq
      · exact hq ▸ h.1
      · exact lt_trans h.1 (ih h.2 q hq)

theorem wfBeam_gate {b : Beam} (h : wfBeam b = true) : 1 ≤ gateCount b := by
  simp only [wfBeam, Bool.and_eq_true, decide_eq_true_eq] at h
  exact h.1.1.1.1

theorem wfBeam_vec {b : Beam} (h : wfBeam b = true) :
    ∀ p ∈ v_def, ∃ l, b.get p = some (Val.vlist l) ∧ l.length = gateCount b := by
  simp only [wfBeam, Bool.and_eq_true] at h
  intro p hp
  have hm := List.all_eq_true.mp h.1.1.1.2 p hp
  cases hg : b.get p with
  | none => rw [hg] at hm; simp at hm
  | some v =>
      cases v with
      | atom a => rw [hg] at hm; simp at hm
      | mat m => rw [hg] at hm; simp at hm
      | vlist l =>
          rw [hg] at hm
          simp only [decide_eq_true_eq] at hm
          exact ⟨l, rfl, hm⟩

theorem wfBeam_scal {b : Beam} (h : wfBeam b = true) :
    ∀ p ∈ s_def, ∃ a, b.get p = some (Val.atom a) := by
  simp only [wfBeam, Bool.and_eq_true] at h
  intro p hp
  have hm := List.all_eq_true.mp h.1.1.2 p hp
  cases hg : b.get p with
  | none => rw [hg] at hm; simp at hm
  | some v =>
      cases v with
      | atom a => exact ⟨a, rfl⟩
      | vlist l => rw [hg] at hm; simp at hm
      | mat m => rw [hg] at hm; simp at hm

theorem wfBeam_scan {b : Beam} (h : wfBeam b = true) :
    b.attr "scan" = vnum 0 ∨ b.attr "scan" = vnum 1 := by
  simp only [wfBeam, Bool.and_eq_true, Bool.or_eq_true, decide_eq_true_eq] at h
  exact h.1.2

theorem wfBeam_bmnum {b : Beam} (h : wfBeam b = true) :
    b.get "bmnum" = some (Val.atom (Atom.num (bmnumOf b))) := by
  simp only [wfBeam, Bool.and_eq_true] at h
  have hm := h.2
  unfold bmnumOf
  cases hg : b.get "bmnum" with
  | none => rw [hg] at hm; simp at hm
  | some v =>
      cases v with
      | atom a =>
          cases a with
          | num k => rfl
          | pynone => rw [hg] at hm; simp at hm
          | nan => rw [hg] at hm; simp at hm
          | dtime t => rw [hg] at hm; simp at hm
      | vlist l => rw [hg] at hm; simp at hm
      | mat m => rw [hg] at hm; simp at hm

theorem flatMap_congr {α β : Type} (f g : α → List β) :
    ∀ (l : List α), (∀ a ∈ l, f a = g a) → l.flatMap f = l.flatMap g
  | [], _ => rfl
  | a :: l, h => by
      simp only [List.flatMap_cons]
      rw [h a (List.mem_cons_self a l),
        flatMap_congr f g l (fun x hx => h x (List.mem_cons_of_mem a hx))]

theorem segCol_length {b : Beam} (h : wfBeam b = true) (c : String) :
    (segCol b c).length = gateCount b := by
  unfold segCol
  by_cases hc : c ∈ v_def
  · rw [if_pos hc]
    obtain ⟨l, hget, hlen⟩ := wfBeam_vec h c hc
    simp [Beam.attr, hget, Val.elems, hlen]
  · rw [if_neg hc]
    exact List.length_replicate _ _

theorem rawCol_eq_flatMap (bs : List Beam) (c : String) :
    rawCol bs v_def c = bs.flatMap (fun b => segCol b c) := by
  unfold rawCol segCol
  by_cases hc : c ∈ v_def <;> simp [hc]

theorem bmnum_col (bs : List Beam) (h : ∀ b ∈ bs, wfBeam b = true) :
    rawCol bs v_def "bmnum" =
      bs.flatMap (fun b => List.replicate (gateCount b) (keyAtom b)) := by
  rw [rawCol_eq_flatMap]
  refine flatMap_congr _ _ bs (fun b hb => ?_)
  unfold segCol
  rw [if_neg (by decide)]
  have hbm := wfBeam_bmnum (h b hb)
  simp [Beam.attr, hbm, Val.toAtom, keyAtom]

theorem rawT_col_length (bs : List Beam) (h : ∀ b ∈ bs, wfBeam b = true)
    (c : String) : (rawCol bs v_def c).length = (bs.map gateCount).sum := by
  rw [rawCol_eq_flatMap]
  exact length_flatMap_eq _ bs (fun b hb => segCol_length (h b hb) c)

/-- Under round-trip well-formedness the padding step is the identity, so
`convert_to_pandas` produces exactly the unpadded column table. -/
theorem convert_eq_rawT (bs : List Beam) (h : ∀ b ∈ bs, wfBeam b = true) :
    convert_to_pandas bs s_def v_def = rawT bs := by
  have hsl : colOf (rawT bs) "slist" = rawCol bs v_def "slist" := by
    have h1 := afind_keyfun (fun x => rawCol bs v_def x) "slist" (s_def ++ v_def)
      (by decide)
    unfold rawT colOf
    rw [h1]
    rfl
  unfold convert_to_pandas padTable
  have hrw : (colOf ((s_def ++ v_def).map (fun c => (c, rawCol bs v_def c)))
      "slist").length = (bs.map gateCount).sum := by
    have := hsl
    unfold rawT at this
    rw [this, rawT_col_length bs h]
  rw [hrw]
  show ((s_def ++ v_def).map (fun c => (c, rawCol bs v_def c))).map _ = rawT bs
  unfold rawT
  rw [List.map_map]
  refine List.map_congr_left (fun c hc => ?_)
  simp only [Function.comp_apply]
  rw [rawT_col_length bs h c, Nat.sub_self, List.replicate_zero, List.append_nil]

/-- The sorted distinct values of the `bmnum` column of a well-formed beam
collection are exactly the beam numbers in input order. -/
theorem uniqueSorted_blocks :
    ∀ (bs : List Beam), (∀ b ∈ bs, wfBeam b = true) →
      strictIncr (bs.map bmnumOf) = true →
      uniqueSorted (bs.flatMap (fun b => List.replicate (gateCount b) (keyAtom b))) =
        bs.map keyAtom
  | [], _, _ => rfl
  | b :: rest, hwf, hinc => by
      have hrest := uniqueSorted_blocks rest
        (fun x hx => hwf x (List.mem_cons_of_mem b hx))
        (strictIncr_tail (by simpa using hinc))
      simp only [List.flatMap_cons, List.map_cons]
      unfold uniqueSorted
      rw [List.foldr_append]
      unfold uniqueSorted at hrest
      rw [hrest]
      have hk : insertSD (keyAtom b) (rest.map keyAtom) =
          keyAtom b :: rest.map keyAtom := by
        cases rest with
        | nil => rfl
        | cons r1 rest2 =>
            have hlt : bmnumOf b < bmnumOf r1 := by
              simp only [List.map_cons, strictIncr, Bool.and_eq_true,
                decide_eq_true_eq] at hinc
              exact hinc.1
            have hne : keyAtom b ≠ keyAtom r1 := by
              simp only [keyAtom, ne_eq, Atom.num.injEq]
              exact ne_of_lt hlt
            have hle : atomLE (keyAtom b) (keyAtom r1) = true := by
              simp only [keyAtom, atomLE, decide_eq_true_eq]
              exact le_of_lt hlt
            simp only [List.map_cons]
            exact insertSD_before _ _ _ hne hle
      obtain ⟨n, hn⟩ : ∃ n, gateCount b = n + 1 := by
        cases hg : gateCount b with
        | zero =>
            have := wfBeam_gate (hwf b (List.mem_cons_self b rest))
            rw [hg] at this
            exact absurd this (by decide)
        | succ n => exact ⟨n, rfl⟩
      rw [hn]
      exact foldr_insertSD_block (keyAtom b) (rest.map keyAtom) hk n

theorem colOf_rawT (bs : List Beam) (c : String) (hc : c ∈ s_def ++ v_def) :
    colOf (rawT bs) c = rawCol bs v_def c := by
  have h1 := afind_keyfun (fun x => rawCol bs v_def x) c (s_def ++ v_def) hc
  unfold rawT colOf
  rw [h1]
  rfl

theorem filterTable_rawT (bs : List Beam) (x : Atom) :
    filterTable (rawT bs) "bmnum" x =
      (s_def ++ v_def).map (fun c =>
        (c, maskFilter
          ((rawCol bs v_def "bmnum").map (fun a => decide (a = x)))
          (rawCol bs v_def c))) := by
  unfold filterTable
  rw [colOf_rawT bs "bmnum" (by decide)]
  unfold rawT
  rw [List.map_map]
  rfl

/-- The boolean mask for one beam number is a block structure: one constant
block per beam. -/
theorem mask_blocks (bs : List Beam) (hwf : ∀ y ∈ bs, wfBeam y = true)
    (x : Atom) :
    (rawCol bs v_def "bmnum").map (fun a => decide (a = x)) =
      bs.flatMap (fun y =>
        List.replicate (gateCount y) (decide (keyAtom y = x))) := by
  rw [bmnum_col bs hwf, List.map_flatMap]
  exact flatMap_congr _ _ bs (fun y _ => List.map_replicate)

/-- Row filtering at the first beam number recovers exactly the first beam
segments. -/
theorem filter_rawT_head (b : Beam) (rest : List Beam)
    (hwf : ∀ y ∈ b :: rest, wfBeam y = true)
    (hinc : strictIncr ((b :: rest).map bmnumOf) = true) :
    filterTable (rawT (b :: rest)) "bmnum" (keyAtom b) = segTbl b := by
  rw [filterTable_rawT]
  unfold segTbl
  refine List.map_congr_left (fun c hc => ?_)
  rw [mask_blocks _ hwf (keyAtom b), rawCol_eq_flatMap (b :: rest) c]
  simp only [List.flatMap_cons, decide_True]
  have hlen : (List.replicate (gateCount b) true).length = (segCol b c).length := by
    rw [List.length_replicate, segCol_length (hwf b (List.mem_cons_self b rest))]
  rw [maskFilter_append _ _ hlen]
  have htrue : maskFilter (List.replicate (gateCount b) true) (segCol b c) =
      segCol b c := by
    rw [← segCol_length (hwf b (List.mem_cons_self b rest)) c]
    exact maskFilter_all_true (segCol b c)
  have hfalse :
      maskFilter (rest.flatMap (fun y =>
        List.replicate (gateCount y) (decide (keyAtom y = keyAtom b))))
        (rest.flatMap (fun y => segCol y c)) = [] := by
    refine maskFilter_all_false _ (fun z hz => ?_) _
    obtain ⟨j, hj, hz2⟩ := List.mem_flatMap.mp hz
    have hjt := List.eq_of_mem_replicate hz2
    have hlt : bmnumOf b < bmnumOf j :=
      strictIncr_head (by simpa using hinc) (bmnumOf j)
        (List.mem_map.mpr ⟨j, hj, rfl⟩)
    have : keyAtom j ≠ keyAtom b := by
      simp only [keyAtom, ne_eq, Atom.num.injEq]
      exact ne_of_gt hlt
    rw [hjt]
    exact decide_eq_false this
  rw [htrue, hfalse, List.append_nil]

/-- Row filtering at any beam number absent from the first block skips the
first beam entirely. -/
theorem filter_rawT_tail (b : Beam) (rest : List Beam) (x : Atom)
    (hwf : ∀ y ∈ b :: rest, wfBeam y = true)
    (hne : decide (keyAtom b = x) = false) :
    filterTable (rawT (b :: rest)) "bmnum" x =
      filterTable (rawT rest) "bmnum" x := by
  rw [filterTable_rawT, filterTable_rawT]
  refine List.map_congr_left (fun c hc => ?_)
  rw [mask_blocks _ hwf x,
    mask_blocks rest (fun y hy => hwf y (List.mem_cons_of_mem b hy)) x,
    rawCol_eq_flatMap (b :: rest) c, rawCol_eq_flatMap rest c]
  simp only [List.flatMap_cons, hne]
  have hlen : (List.replicate (gateCount b) false).length = (segCol b c).length := by
    rw [List.length_replicate, segCol_length (hwf b (List.mem_cons_self b rest))]
  rw [maskFilter_append _ _ hlen]
  rw [maskFilter_all_false _ (fun z hz => List.eq_of_mem_replicate hz) (segCol b c)]
  rw [List.nil_append]

theorem scalAttr_eq (d : Dict) (p : String) (v : Val) (h : afind p d = some v) :
    scalAttr d p = if p = "scan" ∧ v ≠ vnum 0 then vnum 1 else v := by
  unfold scalAttr
  rw [h]

theorem vecAttr_eq (d : Dict) (p : String) (v : Val) (h : afind p d = some v) :
    vecAttr d p = v := by
  unfold vecAttr
  rw [h]

theorem afind_groupDict (sp : List String) (c : String) :
    ∀ (t : Table),
      afind c (groupDict t sp) =
        Option.map (fun col =>
          if c ∈ sp then Val.atom (col.headD Atom.pynone) else Val.vlist col)
          (afind c t)
  | [] => rfl
  | (c1, col) :: t => by
      by_cases h : c1 = c
      · subst h; simp [groupDict, afind]
      · simp only [groupDict, List.map_cons, afind, h, if_false]
        exact afind_groupDict sp c t

theorem headD_replicate_pos {α : Type} (n : ℕ) (x d : α) (h : 1 ≤ n) :
    (List.replicate n x).headD d = x := by
  cases n with
  | zero => exact absurd h (by decide)
  | succ m => rfl

theorem colOf_segTbl (b : Beam) (c : String) (hc : c ∈ s_def ++ v_def) :
    colOf (segTbl b) c = segCol b c := by
  have h1 := afind_keyfun (fun x => segCol b x) c (s_def ++ v_def) hc
  unfold segTbl colOf
  rw [h1]
  rfl

theorem afind_segTbl (b : Beam) (p : String) (hp : p ∈ s_def ++ v_def) :
    afind p (segTbl b) = some (segCol b p) := by
  have h1 := afind_keyfun (fun x => segCol b x) p (s_def ++ v_def) hp
  unfold segTbl
  exact h1

/-- Reconstruction of a one-beam group reproduces every requested attribute
of the original well-formed beam. -/
theorem reconGroup_segTbl (b : Beam) (hb : wfBeam b = true) :
    ∀ p ∈ s_def ++ v_def,
      (Beam.set (Val.atom ((colOf (segTbl b) "time").headD Atom.pynone))
        (groupDict (segTbl b) s_def) s_def v_def).attr p = b.attr p := by
  have htime : (colOf (segTbl b) "time").headD Atom.pynone =
      (b.attr "time").toAtom := by
    rw [colOf_segTbl b "time" (by decide)]
    unfold segCol
    rw [if_neg (by decide)]
    exact headD_replicate_pos _ _ _ (wfBeam_gate hb)
  obtain ⟨ta, hta⟩ := wfBeam_scal hb "time" (by decide)
  have htimev : Val.atom ((b.attr "time").toAtom) = b.attr "time" := by
    simp [Beam.attr, hta, Val.toAtom]
  intro p hp
  have hdisj : ∀ q ∈ s_def, q ∉ v_def := by decide
  have hdisj2 : ∀ q ∈ v_def, q ∉ s_def := by decide
  have htvd : "time" ∉ v_def := by decide
  rcases List.mem_append.mp hp with hps | hpv
  · by_cases hpt : p = "time"
    · subst hpt
      rw [Beam.attr, Beam.set_get_time]
      simp only [Option.getD_some]
      rw [htime]
      exact htimev
    · rw [Beam.attr, Beam.set_get_scal _ _ _ _ p hps (hdisj p hps) hpt]
      simp only [Option.getD_some]
      have hv : afind p (groupDict (segTbl b) s_def) =
          some (Val.atom ((segCol b p).headD Atom.pynone)) := by
        rw [afind_groupDict s_def p (segTbl b),
          afind_segTbl b p (List.mem_append.mpr (Or.inl hps))]
        simp [hps]
      rw [scalAttr_eq _ _ _ hv]
      have hseg : (segCol b p).headD Atom.pynone = (b.attr p).toAtom := by
        unfold segCol
        rw [if_neg (hdisj p hps)]
        exact headD_replicate_pos _ _ _ (wfBeam_gate hb)
      rw [hseg]
      obtain ⟨a, ha⟩ := wfBeam_scal hb p hps
      have hattr : Val.atom ((b.attr p).toAtom) = b.attr p := by
        simp [Beam.attr, ha, Val.toAtom]
      rw [hattr]
      by_cases hscan : p = "scan"
      · subst hscan
        rcases wfBeam_scan hb with h01 | h01 <;> rw [h01] <;> simp
      · rw [if_neg (fun hc => hscan hc.1)]
  · have hptv : p ≠ "time" := fun h => htvd (h ▸ hpv)
    rw [Beam.attr, Beam.set_get_vec _ _ _ _ p hpv hptv]
    simp only [Option.getD_some]
    have hv : afind p (groupDict (segTbl b) s_def) =
        some (Val.vlist (segCol b p)) := by
      rw [afind_groupDict s_def p (segTbl b),
        afind_segTbl b p (List.mem_append.mpr (Or.inr hpv))]
      simp [hdisj2 p hpv]
    rw [vecAttr_eq _ _ _ hv]
    obtain ⟨l, hl, _⟩ := wfBeam_vec hb p hpv
    unfold segCol
    rw [if_pos hpv]
    simp [Beam.attr, hl, Val.elems]

/-- Literal shape of `pandas_to_beams`. -/
theorem pandas_to_beams_def (t : Table) (sp vp : List String) :
    pandas_to_beams t sp vp =
      (uniqueSorted (colOf t "bmnum")).map (fun bm =>
        Beam.set
          (Val.atom
            ((colOf (filterTable t "bmnum" bm) "time").headD Atom.pynone))
          (groupDict (filterTable t "bmnum" bm) sp) sp vp) := rfl

/-- The reconstruction from the unpadded flatten table is pointwise
attribute-equal to the original well-formed beam collection. -/
theorem ptb_rawT :
    ∀ (bs : List Beam), wfBeams bs = true →
      List.Forall₂ (fun b2 b1 => ∀ p ∈ s_def ++ v_def, b2.attr p = b1.attr p)
        (pandas_to_beams (rawT bs) s_def v_def) bs
  | [], _ => by
      rw [pandas_to_beams_def, colOf_rawT [] "bmnum" (by decide),
        rawCol_eq_flatMap]
      exact List.Forall₂.nil
  | b :: rest, hwf => by
      simp only [wfBeams, Bool.and_eq_true] at hwf
      have hall : ∀ y ∈ b :: rest, wfBeam y = true := List.all_eq_true.mp hwf.1
      have hinc : strictIncr ((b :: rest).map bmnumOf) = true := hwf.2
      have hall_rest : ∀ y ∈ rest, wfBeam y = true :=
        fun y hy => hall y (List.mem_cons_of_mem b hy)
      have hinc_rest : strictIncr (rest.map bmnumOf) = true :=
        strictIncr_tail (by simpa using hinc)
      rw [pandas_to_beams_def, colOf_rawT _ "bmnum" (by decide),
        bmnum_col _ hall, uniqueSorted_blocks _ hall hinc]
      simp only [List.map_cons]
      refine List.Forall₂.cons ?_ ?_
      · rw [filter_rawT_head b rest hall hinc]
        exact reconGroup_segTbl b (hall b (List.mem_cons_self b rest))
      · have ih := ptb_rawT rest (by
          simp only [wfBeams, Bool.and_eq_true]
          exact ⟨List.all_eq_true.mpr hall_rest, hinc_rest⟩)
        rw [pandas_to_beams_def, colOf_rawT _ "bmnum" (by decide),
          bmnum_col rest hall_rest,
          uniqueSorted_blocks rest hall_rest hinc_rest] at ih
        have hmaps :
            (rest.map keyAtom).map (fun bm =>
              Beam.set
                (Val.atom ((colOf (filterTable (rawT (b :: rest)) "bmnum" bm)
                  "time").headD Atom.pynone))
                (groupDict (filterTable (rawT (b :: rest)) "bmnum" bm) s_def)
                s_def v_def) =
            (rest.map keyAtom).map (fun bm =>
              Beam.set
                (Val.atom ((colOf (filterTable (rawT rest) "bmnum" bm)
                  "time").headD Atom.pynone))
                (groupDict (filterTable (rawT rest) "bmnum" bm) s_def)
                s_def v_def) := by
          refine List.map_congr_left (fun x hx => ?_)
          obtain ⟨j, hj, hxj⟩ := List.mem_map.mp hx
          have hlt : bmnumOf b < bmnumOf j :=
            strictIncr_head (by simpa using hinc) (bmnumOf j)
              (List.mem_map.mpr ⟨j, hj, rfl⟩)
          have hne : decide (keyAtom b = x) = false := by
            refine decide_eq_false ?_
            rw [← hxj]
            simp only [keyAtom, ne_eq, Atom.num.injEq]
            exact ne_of_lt hlt
          rw [filter_rawT_tail b rest x hall hne]
        rw [hmaps]
        exact ih

/-- C1 (amended): for every collection of well-formed beams with pairwise
distinct, strictly ascending beam numbers, whose vector fields all have
exactly the gate count as length and whose scan flag is already normalized,
`pandas_to_beams` after `convert_to_pandas` reproduces the collection
pointwise: same length, and for each position identical values of every
requested scalar and vector attribute; no padding entries arise.  (Without
the distinct-beam-number proviso the claim fails, see
`round_trip_duplicate_bmnum`: reconstruction groups rows by `bmnum` and
merges distinct beams.) -/
theorem convert_pandas_round_trip (bs : List Beam) (h : wfBeams bs = true) :
    List.Forall₂ (fun b2 b1 => ∀ p ∈ s_def ++ v_def, b2.attr p = b1.attr p)
      (pandas_to_beams (convert_to_pandas bs s_def v_def) s_def v_def) bs := by
  have hall : ∀ y ∈ bs, wfBeam y = true := by
    simp only [wfBeams, Bool.and_eq_true] at h
    exact List.all_eq_true.mp h.1
  rw [convert_eq_rawT bs hall]
  exact ptb_rawT bs h

/-- A full-attribute one-gate beam with beam number 1. -/
def wbA : Beam :=
  ⟨[("bmnum", vnum 1), ("noise.sky", vnum 5), ("tfreq", vnum 10),
    ("scan", vnum 1), ("nrang", vnum 75), ("time", Val.atom (Atom.dtime 0)),
    ("v", Val.vlist [Atom.num 100]), ("w_l", Val.vlist [Atom.num 1]),
    ("gflg", Val.vlist [Atom.num 0]), ("p_l", Val.vlist [Atom.num 3]),
    ("slist", Val.vlist [Atom.num 0]), ("v_e", Val.vlist [Atom.num 2]),
    ("phi0", Val.vlist [Atom.num 4]), ("elv", Val.vlist [Atom.num 6])]⟩

/-- A full-attribute one-gate beam with beam number 2. -/
def wbB : Beam :=
  ⟨[("bmnum", vnum 2), ("noise.sky", vnum 6), ("tfreq", vnum 11),
    ("scan", vnum 0), ("nrang", vnum 75), ("time", Val.atom (Atom.dtime 1)),
    ("v", Val.vlist [Atom.num 200]), ("w_l", Val.vlist [Atom.num 2]),
    ("gflg", Val.vlist [Atom.num 1]), ("p_l", Val.vlist [Atom.num 4]),
    ("slist", Val.vlist [Atom.num 3]), ("v_e", Val.vlist [Atom.num 5]),
    ("phi0", Val.vlist [Atom.num 7]), ("elv", Val.vlist [Atom.num 8])]⟩

/-- Witness for C1 on a concrete two-beam collection. -/
theorem convert_pandas_round_trip_witness :
    wfBeams [wbA, wbB] = true ∧
    List.Forall₂ (fun b2 b1 => ∀ p ∈ s_def ++ v_def, b2.attr p = b1.attr p)
      (pandas_to_beams (convert_to_pandas [wbA, wbB] s_def v_def) s_def v_def)
      [wbA, wbB] :=
  ⟨by decide, convert_pandas_round_trip [wbA, wbB] (by decide)⟩

/-- Same as `wbA` but with the velocity 10 (beam number 1). -/
def dupA : Beam :=
  ⟨[("bmnum", vnum 1), ("noise.sky", vnum 5), ("tfreq", vnum 10),
    ("scan", vnum 1), ("nrang", vnum 75), ("time", Val.atom (Atom.dtime 0)),
    ("v", Val.vlist [Atom.num 10]), ("w_l", Val.vlist [Atom.num 1]),
    ("gflg", Val.vlist [Atom.num 0]), ("p_l", Val.vlist [Atom.num 3]),
    ("slist", Val.vlist [Atom.num 0]), ("v_e", Val.vlist [Atom.num 2]),
    ("phi0", Val.vlist [Atom.num 4]), ("elv", Val.vlist [Atom.num 6])]⟩

/-- A second distinct beam sharing the beam number 1 (velocity 20). -/
def dupB : Beam :=
  ⟨[("bmnum", vnum 1), ("noise.sky", vnum 9), ("tfreq", vnum 12),
    ("scan", vnum 0), ("nrang", vnum 75), ("time", Val.atom (Atom.dtime 1)),
    ("v", Val.vlist [Atom.num 20]), ("w_l", Val.vlist [Atom.num 1]),
    ("gflg", Val.vlist [Atom.num 0]), ("p_l", Val.vlist [Atom.num 3]),
    ("slist", Val.vlist [Atom.num 0]), ("v_e", Val.vlist [Atom.num 2]),
    ("phi0", Val.vlist [Atom.num 4]), ("elv", Val.vlist [Atom.num 6])]⟩

/-- C1 counterexample to the claim as stated: two well-formed beams sharing
beam number 1 are flattened to four rows but reconstructed as a SINGLE beam
whose `v` field is the two-element concatenation, matching neither original
beam; NaN padding plays no role here. -/
theorem round_trip_duplicate_bmnum :
    (pandas_to_beams (convert_to_pandas [dupA, dupB] s_def v_def)
      s_def v_def).length = 1 ∧
    ([dupA, dupB] : List Beam).length = 2 ∧
    (∀ b2 ∈ pandas_to_beams (convert_to_pandas [dupA, dupB] s_def v_def)
        s_def v_def,
      ∀ b1 ∈ [dupA, dupB], b2.attr "v" ≠ b1.attr "v") := by
  refine ⟨by decide, rfl, by decide⟩

end GetFitData
